import Mathlib

/-!
Verification of the tree/codec core of `gsettings-ui` (files `gimodel.py`,
`gsedit.py`, `gsettings-ui.py`).

The development shallowly embeds:
  * GVariant values (`GVal`) together with their structured type (`Sig`) and
    the type-string view (`typeString`) used by the Python code;
  * Python run-time values (`PyVal`) as produced by `unpack` and consumed by
    the pygobject `GLib.Variant` constructor (`make` / `glVariant`);
  * the decomposer `GSettingsViewer.parse_key`, the recomposer
    `GSettingsEditor.gather_variant` / `rebuild_item`, the model classes
    `GiValue`, the default resolver `get_defaultvalue`, the search cursor
    `SearchResults`, and the commit flow `accept_change`.

Python string membership (`needle in haystack`) is embedded by `listSub` /
`pyIn`; dictionaries are embedded as association lists with the
insertion-order last-write-wins update `dictInsert` that CPython dicts
implement.
-/

/-- Python's substring test `n in h` on character lists. -/
def listSub : List Char → List Char → Bool
  | n, [] => n.isEmpty
  | n, c :: t => n.isPrefixOf (c :: t) || listSub n t

/-- Python's `needle in haystack` for strings. -/
def pyIn (needle haystack : String) : Bool :=
  listSub needle.toList haystack.toList

/-- Membership of a character in a string (`c in s` for a length-1 `c`). -/
def charIn (c : Char) (s : String) : Bool :=
  s.toList.contains c

/-- `s[0]` for the nonempty strings this code indexes. -/
def headChar (s : String) : Char :=
  s.toList.headD '?'

/-- Python's `s.startswith(p)`. -/
def strStarts (s p : String) : Bool :=
  p.toList.isPrefixOf s.toList

/-- `GlVariant.base_type_sig` from `gimodel.py`: the basic (leaf) type
characters. -/
def GlVariant.base_type_sig : String := "bynqiuxtdsog"

/-- Structured GVariant type signatures, as GLib itself stores them.  A
dictionary signature `a{sV}` (string keys, as used throughout this code) is
one constructor.  Its rendering as the type-signature string the Python code
branches on is `sigChars`/`sigStr`. -/
inductive Sig where
  | base (c : Char)
  | variant
  | maybe (s : Sig)
  | array (s : Sig)
  | dict (v : Sig)
  | tuple (ss : List Sig)
deriving Repr

mutual
/-- The character rendering of a signature (GVariant type string). -/
def sigChars : Sig → List Char
  | .base c => [c]
  | .variant => ['v']
  | .maybe s => 'm' :: sigChars s
  | .array s => 'a' :: sigChars s
  | .dict v => 'a' :: '\x7b' :: 's' :: (sigChars v ++ ['\x7d'])
  | .tuple ss => '(' :: (sigCharsList ss ++ [')'])

/-- Concatenated rendering of tuple component signatures. -/
def sigCharsList : List Sig → List Char
  | [] => []
  | s :: ss => sigChars s ++ sigCharsList ss
end

/-- String form of a signature. -/
def sigStr (s : Sig) : String := String.mk (sigChars s)

mutual
/-- Boolean equality on signatures (used to build decidable equality, which
`deriving` does not supply for nested inductives). -/
def sigBeq : Sig → Sig → Bool
  | .base c, .base c' => c == c'
  | .variant, .variant => true
  | .maybe s, .maybe s' => sigBeq s s'
  | .array s, .array s' => sigBeq s s'
  | .dict v, .dict v' => sigBeq v v'
  | .tuple ss, .tuple ss' => sigBeqList ss ss'
  | _, _ => false

def sigBeqList : List Sig → List Sig → Bool
  | [], [] => true
  | s :: ss, t :: ts => sigBeq s t && sigBeqList ss ts
  | _, _ => false
end

mutual
theorem sigBeq_iff : ∀ s t : Sig, sigBeq s t = true ↔ s = t
  | .base c, t => by
    cases t <;> simp [sigBeq]
  | .variant, t => by
    cases t <;> simp [sigBeq]
  | .maybe s, t => by
    cases t <;> simp [sigBeq, sigBeq_iff s]
  | .array s, t => by
    cases t <;> simp [sigBeq, sigBeq_iff s]
  | .dict v, t => by
    cases t <;> simp [sigBeq, sigBeq_iff v]
  | .tuple ss, t => by
    cases t <;> simp [sigBeq, sigBeqList_iff ss]

theorem sigBeqList_iff : ∀ ss ts : List Sig, sigBeqList ss ts = true ↔ ss = ts
  | [], ts => by cases ts <;> simp [sigBeqList]
  | s :: ss, ts => by
    cases ts with
    | nil => simp [sigBeqList]
    | cons t ts => simp [sigBeqList, sigBeq_iff s, sigBeqList_iff ss]
end

instance : DecidableEq Sig := fun s t => decidable_of_iff _ (sigBeq_iff s t)

/-- GVariant values.  Leaves carry their type character; numeric leaves carry
an integer payload (for `d` the payload is an opaque encoding of the float,
which the codec only carries around, never interprets).  Dictionary keys are
strings, matching every dictionary this application manipulates. -/
inductive GVal where
  | vBool (b : Bool)
  | vNum (c : Char) (n : Int)
  | vStr (c : Char) (s : String)
  | vArray (elem : Sig) (xs : List GVal)
  | vDict (valSig : Sig) (entries : List (String × GVal))
  | vTuple (xs : List GVal)
  | vMaybe (inner : Sig) (w : Option GVal)
  | vVariant (w : GVal)
deriving Repr

mutual
/-- The (structured) type of a value. -/
def sigOf : GVal → Sig
  | .vBool _ => .base 'b'
  | .vNum c _ => .base c
  | .vStr c _ => .base c
  | .vArray e _ => .array e
  | .vDict v _ => .dict v
  | .vTuple xs => .tuple (sigOfList xs)
  | .vMaybe i _ => .maybe i
  | .vVariant _ => .variant

def sigOfList : List GVal → List Sig
  | [] => []
  | x :: xs => sigOf x :: sigOfList xs
end

/-- `data.get_type_string()`. -/
def typeString (v : GVal) : String := String.mk (sigChars (sigOf v))

/-- Python run-time values: what `unpack` produces and what the pygobject
`GLib.Variant(format, value)` constructor consumes.  `pyFloat` carries the
same opaque payload as a `d` leaf.  `pyVariant` is a `GLib.Variant` object
living inside Python data. -/
inductive PyVal where
  | pyNone
  | pyBool (b : Bool)
  | pyInt (n : Int)
  | pyFloat (x : Int)
  | pyStr (s : String)
  | pyList (xs : List PyVal)
  | pyTuple (xs : List PyVal)
  | pyDict (entries : List (String × PyVal))
  | pyVariant (w : GVal)
deriving Repr

/-- `variant.unpack()` for leaf variants (the only place `parse_key` calls it,
guarded by `tv[0] in GlVariant.base_type_sig`). -/
def unpack : GVal → PyVal
  | .vBool b => .pyBool b
  | .vNum c n => if c = 'd' then .pyFloat n else .pyInt n
  | .vStr _ s => .pyStr s
  | _ => .pyNone

/-- CPython dict assignment `d[k] = v`: updates the value in place if the key
exists (keeping its original insertion position), otherwise appends. -/
def dictInsert {α : Type} : List (String × α) → String → α → List (String × α)
  | [], k, v => [(k, v)]
  | (k', v') :: rest, k, v =>
    if k' = k then (k', v) :: rest else (k', v') :: dictInsert rest k v

/-- Wrap a parsed inner signature as a maybe signature. -/
def mRes : Option (Sig × List Char) → Option (Sig × List Char)
  | some (s, t) => some (.maybe s, t)
  | none => none

/-- Wrap a parsed element signature as an array signature. -/
def aRes : Option (Sig × List Char) → Option (Sig × List Char)
  | some (s, t) => some (.array s, t)
  | none => none

/-- Wrap a parsed value signature (which must be followed by the closing
brace) as a dictionary signature. -/
def dRes : Option (Sig × List Char) → Option (Sig × List Char)
  | some (s, '\x7d' :: t) => some (.dict s, t)
  | _ => none

/-- Wrap parsed tuple components as a tuple signature. -/
def tRes : Option (List Sig × List Char) → Option (Sig × List Char)
  | some (ss, t) => some (.tuple ss, t)
  | none => none

/-- Prepend a component to a parsed tuple-body tail. -/
def tupCons (s : Sig) : Option (List Sig × List Char) → Option (List Sig × List Char)
  | some (ss, t) => some (s :: ss, t)
  | none => none

mutual
/-- Parse one complete signature from the front of a character list,
returning the structured signature and the unconsumed remainder.  This models
GLib's type-string parser (`GLib.VariantType` validation and the signature
walking done inside the pygobject `GLib.Variant` constructor).  The `Nat`
argument is recursion fuel; every caller passes `2 * length + 2`, which
always suffices because each call consumes fuel 1 while the remaining
work shrinks. -/
def readSig : Nat → List Char → Option (Sig × List Char)
  | 0, _ => none
  | _ + 1, [] => none
  | f + 1, c :: r =>
    if c = 'm' then mRes (readSig f r)
    else if c = 'a' then
      match r with
      | '\x7b' :: 's' :: r2 => dRes (readSig f r2)
      | _ => aRes (readSig f r)
    else if c = '(' then tRes (readTupleSig f r)
    else if c = 'v' then some (.variant, r)
    else if charIn c GlVariant.base_type_sig then some (.base c, r)
    else none

/-- Parse a `)`-terminated run of signatures (a tuple body). -/
def readTupleSig : Nat → List Char → Option (List Sig × List Char)
  | 0, _ => none
  | _ + 1, [] => none
  | f + 1, c :: r =>
    if c = ')' then some ([], r)
    else (readSig f (c :: r)).bind fun p => tupCons p.1 (readTupleSig f p.2)
end

/-- Parse a complete signature string (no trailing characters allowed). -/
def toSig (l : List Char) : Option Sig :=
  match readSig (2 * l.length + 2) l with
  | some (s, []) => some s
  | _ => none

mutual
/-- Structural size of a Python value, used to provide recursion fuel for
`make`. -/
def pySize : PyVal → Nat
  | .pyList xs => 1 + pySizeList xs
  | .pyTuple xs => 1 + pySizeList xs
  | .pyDict es => 1 + pySizeEntries es
  | _ => 1

def pySizeList : List PyVal → Nat
  | [] => 0
  | x :: xs => 1 + pySize x + pySizeList xs

def pySizeEntries : List (String × PyVal) → Nat
  | [] => 0
  | (_, p) :: es => 1 + pySize p + pySizeEntries es
end

mutual
/-- The pygobject constructor `GLib.Variant(format, value)`: build a variant
of the (single, complete) type `sig` from the Python value `p`.  Behaviour
modelled from pygobject/GLib:
  * numeric formats accept Python ints (and bools, which are ints in Python);
  * `v` requires an existing `GLib.Variant` object and wraps it;
  * `m`-formats accept `None` (Nothing) or a value of the inner type;
  * `a{...}` requires a Python `dict`, `a...` a `list`, `(...)` a sequence;
  * a malformed format string is an error.
The `Nat` argument is recursion fuel; `glVariant` passes
`pySize p + 2 * |sig| + 2`, which always suffices because every recursive
call decreases `pySize + |sig|`. -/
def make : Nat → List Char → PyVal → Except String GVal
  | 0, _, _ => .error "TypeError: fuel exhausted"
  | _ + 1, [], _ => .error "TypeError: invalid format string"
  | f + 1, c :: rest, p =>
    if c = 'm' then
      match p with
      | .pyNone =>
        match toSig rest with
        | some s => .ok (.vMaybe s .none)
        | none => .error "TypeError: invalid format string"
      | _ =>
        match make f rest p with
        | .ok w => .ok (.vMaybe (sigOf w) (some w))
        | .error e => .error e
    else if c = 'a' then
      match rest with
      | '\x7b' :: 's' :: r2 =>
        if r2.getLast? = some '\x7d' then
          match toSig r2.dropLast with
          | some s =>
            match p with
            | .pyDict es =>
              match makeEntries f r2.dropLast es with
              | .ok entries => .ok (.vDict s entries)
              | .error e => .error e
            | _ => .error "TypeError: expected dict"
          | none => .error "TypeError: invalid format string"
        else .error "TypeError: invalid format string"
      | _ =>
        match toSig rest with
        | some s =>
          match p with
          | .pyList xs =>
            match makeElems f rest xs with
            | .ok ys => .ok (.vArray s ys)
            | .error e => .error e
          | _ => .error "TypeError: expected list"
        | none => .error "TypeError: invalid format string"
    else if c = '(' then
      match p with
      | .pyList xs =>
        match makeTupElems f rest xs with
        | .ok ys => .ok (.vTuple ys)
        | .error e => .error e
      | .pyTuple xs =>
        match makeTupElems f rest xs with
        | .ok ys => .ok (.vTuple ys)
        | .error e => .error e
      | _ => .error "TypeError: expected sequence"
    else if rest.isEmpty then
      if c = 'v' then
        match p with
        | .pyVariant w => .ok (.vVariant w)
        | _ => .error "TypeError: expected GLib.Variant"
      else if c = 'b' then
        match p with
        | .pyBool b => .ok (.vBool b)
        | _ => .error "TypeError: expected bool"
      else if c = 'd' then
        match p with
        | .pyFloat x => .ok (.vNum 'd' x)
        | .pyInt n => .ok (.vNum 'd' n)
        | .pyBool b => .ok (.vNum 'd' (if b then 1 else 0))
        | _ => .error "TypeError: expected float"
      else if charIn c "ynqiuxt" then
        match p with
        | .pyInt n => .ok (.vNum c n)
        | .pyBool b => .ok (.vNum c (if b then 1 else 0))
        | _ => .error "TypeError: expected int"
      else if charIn c "sog" then
        match p with
        | .pyStr s => .ok (.vStr c s)
        | _ => .error "TypeError: expected str"
      else .error "TypeError: invalid format string"
    else .error "TypeError: invalid format string"

/-- Build the elements of an array: every element against the same element
format. -/
def makeElems : Nat → List Char → List PyVal → Except String (List GVal)
  | 0, _, _ => .error "TypeError: fuel exhausted"
  | _ + 1, _, [] => .ok []
  | f + 1, sig, x :: xs =>
    match make f sig x with
    | .ok y =>
      match makeElems f sig xs with
      | .ok ys => .ok (y :: ys)
      | .error e => .error e
    | .error e => .error e

/-- Build the components of a tuple: `sig` is the remaining format after the
opening parenthesis, to be consumed one component signature per element and
closed by `)`. -/
def makeTupElems : Nat → List Char → List PyVal → Except String (List GVal)
  | 0, _, _ => .error "TypeError: fuel exhausted"
  | f + 1, sig, xs =>
    match sig with
    | [] => .error "TypeError: invalid format string"
    | ')' :: after =>
      match xs with
      | [] => if after.isEmpty then .ok [] else .error "TypeError: invalid format string"
      | _ => .error "TypeError: too many elements"
    | _ =>
      match xs with
      | [] => .error "TypeError: too few elements"
      | x :: xs' =>
        match readSig (2 * sig.length + 2) sig with
        | some (s, rem) =>
          match make f (sigChars s) x with
          | .ok y =>
            match makeTupElems f rem xs' with
            | .ok ys => .ok (y :: ys)
            | .error e => .error e
          | .error e => .error e
        | none => .error "TypeError: invalid format string"

/-- Build the entries of a dictionary: every value against the value format,
keys taken verbatim, in the dict's (insertion) order. -/
def makeEntries : Nat → List Char → List (String × PyVal) → Except String (List (String × GVal))
  | 0, _, _ => .error "TypeError: fuel exhausted"
  | _ + 1, _, [] => .ok []
  | f + 1, vs, (k, p) :: es =>
    match make f vs p with
    | .ok w =>
      match makeEntries f vs es with
      | .ok ws => .ok ((k, w) :: ws)
      | .error e => .error e
    | .error e => .error e
end

/-- The `GlVariant(vt_str, value)` constructor call as it appears in the
Python sources (a `GLib.Variant` subclass constructor). -/
def glVariant (vt_str : String) (p : PyVal) : Except String GVal :=
  make (pySize p + 2 * vt_str.length + 2) vt_str.toList p

/-- `GlVariant.AssureVariant` from `gimodel.py`: pass an existing variant
through, wrap anything else via the constructor. -/
def AssureVariant (vt_str : String) (input : PyVal) : Except String GVal :=
  match input with
  | .pyVariant w => .ok w
  | _ => glVariant vt_str input

/-- `GLib.Variant.new_maybe(child_type, child)`: produces a value of type
maybe-of-`child_type` (note: the *child* type, exactly as GLib documents). -/
def new_maybe (child_type : Sig) (child : Option GVal) : GVal :=
  .vMaybe child_type child

/-- `GiValue` from `gimodel.py`: value, type string, variant mark and the
compound classification. -/
structure GiValue where
  value : Option PyVal
  vtype : String
  variant : Bool
  compound : Bool
deriving Repr

/-- `GiValue.factory`: the compound flag is `type not in
GlVariant.base_type_sig`, a Python *substring* test on the whole type
string. -/
def GiValue.factory (value : Option PyVal) (type : String) : GiValue :=
  { value := value, vtype := type, variant := false,
    compound := !(pyIn type GlVariant.base_type_sig) }

/-- `GiValue.set_value`: a string assigned to a `b`-typed value is coerced by
comparison with the literal `'True'`; everything else is stored as-is. -/
def GiValue.set_value (gi : GiValue) (value : PyVal) : GiValue :=
  match value with
  | .pyStr s =>
    if gi.vtype = "b" then { gi with value := some (.pyBool (s == "True")) }
    else { gi with value := some (.pyStr s) }
  | v => { gi with value := some v }

/-- Modelled from the spec: `GiDict.add_gidata` is called by `parse_key` for
every inserted tree node but is absent from the sources (only its call sites
exist).  Per the spec's ValueNode data model it records, for the node, a
`GiValue` built by `GiValue.factory` from the unpacked scalar (for a leaf;
unset for a compound) and the value's runtime type string, with the
variant-wrapped mark set from `parse_key`'s `variant` argument. -/
def add_gidata (leafValue : Option PyVal) (vtype : String) (variant : Bool) : GiValue :=
  let gi := GiValue.factory leafValue vtype
  { gi with variant := variant }

/-- A `ttk.Treeview` item as `parse_key` builds it: its display text (`name`),
the `GiValue` the `gi_dict` associates with it, and its child items in
insertion order. -/
inductive TreeNode where
  | node (name : String) (gi : GiValue) (children : List TreeNode)
deriving Repr

def TreeNode.name : TreeNode → String
  | .node n _ _ => n

def TreeNode.gi : TreeNode → GiValue
  | .node _ g _ => g

def TreeNode.children : TreeNode → List TreeNode
  | .node _ _ cs => cs

mutual
/-- `GSettingsViewer.parse_key` (decomposition), for a present value
(`data != None`).  `keyIdNone` is `key_id == None` (true only at the root
call from `load_schemas`).  The function returns the list of tree items
inserted into the parent: one item normally, and the flattened child items
when a nested variant elides its own node (`current = parent`). -/
def parse_key (keyIdNone : Bool) (name : String) (data : GVal) (variant : Bool) :
    List TreeNode :=
  let tv := typeString data
  let isVar := pyIn tv "v@"
  if pyIn (String.singleton (headChar tv)) GlVariant.base_type_sig then
    [.node name (add_gidata (some (unpack data)) tv variant) []]
  else
    let children :=
      if strStarts tv "a\x7b" then
        match data with
        | .vDict _ es => parse_entries es
        | _ => []
      else if pyIn (String.singleton (headChar tv)) "a([" then
        match data with
        | .vArray _ xs => parse_elems 0 xs
        | .vTuple xs => parse_elems 0 xs
        | _ => []
      else if isVar then
        match data with
        | .vVariant w => parse_key false name w true
        | _ => []
      else if headChar tv = 'm' then
        match data with
        | .vMaybe _ (some w) => parse_key false "0" w false
        | _ => []
      else []
    if isVar && !keyIdNone then children
    else [.node name (add_gidata none tv variant) children]

/-- Array/tuple elements: recursed positionally with `str(i)` as the name. -/
def parse_elems (i : Nat) : List GVal → List TreeNode
  | [] => []
  | x :: xs => parse_key false (toString i) x false ++ parse_elems (i + 1) xs

/-- Dictionary entries: the value is recursed with the unpacked key as the
child's name. -/
def parse_entries : List (String × GVal) → List TreeNode
  | [] => []
  | (k, v) :: es => parse_key false k v false ++ parse_entries es
end

/-- The tail of every compound `gather_variant` branch:
`if gi_value.is_variant(): v = GlVariant(vt_str, v)` then `return v`. -/
def variant_wrap (gi : GiValue) : Except String PyVal → Except String PyVal
  | .ok v => if gi.variant then (glVariant gi.vtype v).map .pyVariant else .ok v
  | .error e => .error e

/-- The tail of the dictionary branch: `v = dict if container else
GlVariant(vt_str, dict)`. -/
def dict_stage (vt : String) (container : Bool) :
    Except String (List (String × PyVal)) → Except String PyVal
  | .ok d =>
    if container then .ok (.pyDict d) else (glVariant vt (.pyDict d)).map .pyVariant
  | .error e => .error e

/-- The tail of the array/tuple branch: `v = list if container else
GlVariant(vt_str, list)`. -/
def list_stage (vt : String) (container : Bool) :
    Except String (List PyVal) → Except String PyVal
  | .ok l =>
    if container then .ok (.pyList l) else (glVariant vt (.pyList l)).map .pyVariant
  | .error e => .error e

/-- The fall-through branch: `val = gi_dict.get_value(next).get_value();
v = val if container else GlVariant(vt_str, val)`. -/
def scalar_stage (vt : String) (container : Bool) (value : Option PyVal) :
    Except String PyVal :=
  let val := value.getD .pyNone
  if container then .ok val else (glVariant vt val).map .pyVariant

mutual
/-- `GSettingsEditor.gather_variant` (recomposition). -/
def gather_variant (t : TreeNode) (container : Bool) : Except String PyVal :=
  match t with
  | .node _ gi children =>
    if !gi.compound then
      .ok (gi.value.getD .pyNone)
    else
      variant_wrap gi
        (if strStarts gi.vtype "a\x7b" then
          dict_stage gi.vtype container (gather_dict [] children)
        else if pyIn (String.singleton (headChar gi.vtype)) "a[(" then
          list_stage gi.vtype container (gather_list children)
        else if pyIn (String.singleton (headChar gi.vtype)) "v@" then
          variant_stage children
        else if headChar gi.vtype = 'm' then
          maybe_stage gi.vtype children
        else
          scalar_stage gi.vtype container gi.value)
termination_by structural t

/-- The variant branch: `v = gather(children[0])`, raising `IndexError` on an
empty child list. -/
def variant_stage : List TreeNode → Except String PyVal
  | [] => .error "IndexError: tuple index out of range"
  | c :: _ => gather_variant c false
termination_by structural l => l

/-- The maybe branch: an empty child list produces
`GLib.Variant.new_maybe(GLib.VariantType(vt_str), None)`; a nonempty one
gathers and discards each child and then reads the never-assigned local `v`,
raising `UnboundLocalError`. -/
def maybe_stage (vt : String) : List TreeNode → Except String PyVal
  | [] =>
    match toSig vt.toList with
    | some s => .ok (.pyVariant (new_maybe s .none))
    | none => .error "TypeError: invalid GVariantType"
  | c :: cs =>
    match gather_variant c false with
    | .ok _ =>
      match gather_discard cs with
      | .ok _ =>
        .error "UnboundLocalError: local variable referenced before assignment"
      | .error e => .error e
    | .error e => .error e
termination_by structural l => l

/-- The list comprehension over `tree.get_children(next)` in the array/tuple
branch (each child gathered with `container=True`). -/
def gather_list : List TreeNode → Except String (List PyVal)
  | [] => .ok []
  | c :: cs =>
    match gather_variant c true with
    | .ok v =>
      match gather_list cs with
      | .ok vs => .ok (v :: vs)
      | .error e => .error e
    | .error e => .error e
termination_by structural l => l

/-- The dictionary loop: `dict[tree.item(c, "text")] = gather(c, True)` over
the children, building a CPython dict. -/
def gather_dict (acc : List (String × PyVal)) :
    List TreeNode → Except String (List (String × PyVal))
  | [] => .ok acc
  | c :: cs =>
    match gather_variant c true with
    | .ok v => gather_dict (dictInsert acc c.name v) cs
    | .error e => .error e
termination_by structural l => l

/-- The maybe-with-children loop: gathers each child (`container=False`) and
discards the results. -/
def gather_discard : List TreeNode → Except String Unit
  | [] => .ok ()
  | c :: cs =>
    match gather_variant c false with
    | .ok _ => gather_discard cs
    | .error e => .error e
termination_by structural l => l
end

/-- `GSettingsEditor.rebuild_item`: gather the key's subtree and coerce the
result to a variant with the key's declared type string. -/
def rebuild_item (t : TreeNode) (key_type : String) : Except String GVal :=
  match gather_variant t false with
  | .ok data => AssureVariant key_type data
  | .error e => .error e

/-- The root decomposition of a key's value: the single tree item that
`parse_key(parent, None, key, val, schema)` inserts under the key's schema
node. -/
def decomposeRoot (v : GVal) : TreeNode :=
  (parse_key true "key" v false).headD (.node "" (GiValue.factory none "?") [])

/-- Decompose a value, then rebuild it against its own type signature (the
spec's `recompose(decompose(sig, v), sig)`). -/
def round_trip (v : GVal) : Except String GVal :=
  rebuild_item (decomposeRoot v) (typeString v)

mutual
/-- Well-formed signature: base characters really are base type characters.
(`sigChars` renders arbitrary `Sig.base` characters; `sigOk` pins them to the
GVariant basic types so the rendering is a genuine type string.) -/
def sigOk : Sig → Bool
  | .base c => charIn c GlVariant.base_type_sig
  | .variant => true
  | .maybe s => sigOk s
  | .array s => sigOk s
  | .dict v => sigOk v
  | .tuple ss => sigOkList ss

def sigOkList : List Sig → Bool
  | [] => true
  | s :: ss => sigOk s && sigOkList ss
end

mutual
/-- Internal type coherence of a value: element/entry/inner types match the
container's declared component signature. -/
def wellTyped : GVal → Bool
  | .vBool _ => true
  | .vNum _ _ => true
  | .vStr _ _ => true
  | .vArray e xs => wtElems e xs
  | .vDict v es => wtEntries v es
  | .vTuple xs => wtList xs
  | .vMaybe i w =>
    match w with
    | none => true
    | some x => decide (sigOf x = i) && wellTyped x
  | .vVariant w => wellTyped w

def wtElems (e : Sig) : List GVal → Bool
  | [] => true
  | x :: xs => decide (sigOf x = e) && wellTyped x && wtElems e xs

def wtEntries (v : Sig) : List (String × GVal) → Bool
  | [] => true
  | (_, x) :: es => decide (sigOf x = v) && wellTyped x && wtEntries v es

def wtList : List GVal → Bool
  | [] => true
  | x :: xs => wellTyped x && wtList xs
end

mutual
/-- The maybe-free, variant-free fragment of the value grammar, with
well-formed leaf/element signatures. -/
def plain : GVal → Bool
  | .vBool _ => true
  | .vNum c _ => charIn c "ynqiuxtd"
  | .vStr c _ => charIn c "sog"
  | .vArray e xs => sigOk e && plainList xs
  | .vDict v es => sigOk v && plainEntries es
  | .vTuple xs => plainList xs
  | .vMaybe _ _ => false
  | .vVariant _ => false

def plainList : List GVal → Bool
  | [] => true
  | x :: xs => plain x && plainList xs

def plainEntries : List (String × GVal) → Bool
  | [] => true
  | (_, x) :: es => plain x && plainEntries es
end

/-- Distinctness of a list of strings. -/
def strsDistinct : List String → Bool
  | [] => true
  | s :: ss => !(ss.contains s) && strsDistinct ss

mutual
/-- Every dictionary inside the value has pairwise-distinct keys. -/
def dupFree : GVal → Bool
  | .vArray _ xs => dupFreeList xs
  | .vDict _ es => strsDistinct (es.map Prod.fst) && dupFreeEntries es
  | .vTuple xs => dupFreeList xs
  | .vMaybe _ (some x) => dupFree x
  | .vVariant w => dupFree w
  | _ => true

def dupFreeList : List GVal → Bool
  | [] => true
  | x :: xs => dupFree x && dupFreeList xs

def dupFreeEntries : List (String × GVal) → Bool
  | [] => true
  | (_, x) :: es => dupFree x && dupFreeEntries es
end

mutual
/-- The raw Python view of a value, as `unpack`/the `container=True` gathering
produce it: leaves unpack to scalars, arrays *and tuples* to Python lists
(`gather_variant` builds a list for both), dictionaries to Python dicts. -/
def toPy : GVal → PyVal
  | .vBool b => .pyBool b
  | .vNum c n => if c = 'd' then .pyFloat n else .pyInt n
  | .vStr _ s => .pyStr s
  | .vArray _ xs => .pyList (toPyList xs)
  | .vDict _ es => .pyDict (toPyEntries es)
  | .vTuple xs => .pyList (toPyList xs)
  | .vMaybe _ _ => .pyNone
  | .vVariant w => .pyVariant w

def toPyList : List GVal → List PyVal
  | [] => []
  | x :: xs => toPy x :: toPyList xs

def toPyEntries : List (String × GVal) → List (String × PyVal)
  | [] => []
  | (k, x) :: es => (k, toPy x) :: toPyEntries es
end

/-- `type(x) in [list, tuple]`: the positional-sequence test of
`get_defaultvalue`. -/
def pySeqItems : PyVal → Option (List PyVal)
  | .pyList xs => some xs
  | .pyTuple xs => some xs
  | _ => none

/-- `get_defaultvalue` from `gimodel.py`.  The treeview interactions are
embedded by their data: `siblings` is `tree.get_children(tree.parent(item))`
in order and `focused` is `tree.focus()`.  `siblings.index(focused)` raises
`ValueError` when absent; `default_value[index]` raises `IndexError` when the
index is out of range — both are surfaced, not clamped. -/
def get_defaultvalue (siblings : List String) (focused : String)
    (default_value : PyVal) (value : GiValue) : Except String PyVal :=
  match pySeqItems default_value with
  | some items =>
    if !value.compound then
      match siblings.findIdx? (· == focused) with
      | some index =>
        match items.get? index with
        | some selected => .ok selected
        | none => .error "IndexError: list index out of range"
      | none => .error "ValueError: item not in list"
    else .ok default_value
  | none => .ok default_value

/-- `SearchResults` from `gsettings-ui.py`: a list with a cursor.  The index
is an `Int` exactly as a Python int (the guards are what keep it
non-negative). -/
structure SearchResults where
  items : List String
  current_index : Int
deriving Repr

/-- Python list indexing `l[i]`, including negative-index wrap-around;
`none` is an `IndexError`. -/
def pyListGet (l : List String) (i : Int) : Option String :=
  if 0 ≤ i then l.get? i.toNat
  else if 0 ≤ i + l.length then l.get? (i + l.length).toNat
  else none

/-- `self[self.current_index] if self else None`: `.ok none` models the
returned `None` on an empty list, `.error` a raised `IndexError`. -/
def SearchResults.fetch (s : SearchResults) : Except String (Option String) :=
  if s.items.isEmpty then .ok none
  else
    match pyListGet s.items s.current_index with
    | some x => .ok (some x)
    | none => .error "IndexError: list index out of range"

/-- `SearchResults.next`. -/
def SearchResults.next (s : SearchResults) : Except String (Option String) × SearchResults :=
  let s' :=
    if s.current_index < (s.items.length : Int) - 1 then
      { s with current_index := s.current_index + 1 }
    else s
  (s'.fetch, s')

/-- `SearchResults.previous`. -/
def SearchResults.previous (s : SearchResults) : Except String (Option String) × SearchResults :=
  let s' :=
    if 0 < s.current_index then { s with current_index := s.current_index - 1 }
    else s
  (s'.fetch, s')

/-- `SearchResults.current` (no state change). -/
def SearchResults.current (s : SearchResults) : Except String (Option String) × SearchResults :=
  (s.fetch, s)

/-- `list.append` (inherited by `SearchResults`). -/
def SearchResults.append (s : SearchResults) (x : String) :
    Except String (Option String) × SearchResults :=
  (.ok none, { s with items := s.items ++ [x] })

/-- One call in a `SearchResults` usage sequence. -/
inductive SOp where
  | next
  | previous
  | current
  | append (x : String)
deriving Repr

def srStep (s : SearchResults) : SOp → Except String (Option String) × SearchResults
  | .next => s.next
  | .previous => s.previous
  | .current => s.current
  | .append x => s.append x

/-- Run a sequence of calls, keeping only the final state. -/
def srRun (s : SearchResults) : List SOp → SearchResults
  | [] => s
  | op :: ops => srRun (srStep s op).2 ops

/-- The cursor invariant: non-negative, and strictly below the length (or 0
for an empty list). -/
def srInv (s : SearchResults) : Prop :=
  0 ≤ s.current_index ∧ s.current_index < max (s.items.length : Int) 1

/-- Python's built-in types, as `type(self.value)` can report them for a leaf
value. -/
inductive PyType where
  | tBool
  | tInt
  | tFloat
  | tStr
deriving DecidableEq, Repr

def pyTypeOf : PyVal → Option PyType
  | .pyBool _ => some .tBool
  | .pyInt _ => some .tInt
  | .pyFloat _ => some .tFloat
  | .pyStr _ => some .tStr
  | _ => none

/-- Calling a Python type on a string: `bool(s)` is truthiness, `int(s)` /
`float(s)` parse or raise `ValueError`, `str(s)` is the identity.  (Numeric
parsing is embedded with Lean's integer parser; the commit-flow claims only
depend on it parsing plain decimal literals and rejecting garbage.) -/
def pyCoerce (t : PyType) (s : String) : Except String PyVal :=
  match t with
  | .tBool => .ok (.pyBool (s ≠ ""))
  | .tInt =>
    match s.toInt? with
    | some n => .ok (.pyInt n)
    | none => .error "ValueError: invalid literal for int"
  | .tFloat =>
    match s.toInt? with
    | some n => .ok (.pyFloat n)
    | none => .error "ValueError: could not convert string to float"
  | .tStr => .ok (.pyStr s)

/-- Read the `GiValue` at a path of child positions in the tree. -/
def getAt : TreeNode → List Nat → Option GiValue
  | .node _ gi _, [] => some gi
  | .node _ _ cs, i :: p =>
    match cs.get? i with
    | some c => getAt c p
    | none => none

mutual
/-- Replace the `GiValue` at a path of child positions. -/
def setAt : TreeNode → List Nat → (GiValue → GiValue) → TreeNode
  | .node n gi cs, [], f => .node n (f gi) cs
  | .node n gi cs, i :: p, f => .node n gi (setAtList cs i p f)

def setAtList : List TreeNode → Nat → List Nat → (GiValue → GiValue) → List TreeNode
  | [], _, _, _ => []
  | c :: cs, 0, p, f => setAt c p f :: cs
  | c :: cs, i + 1, p, f => c :: setAtList cs i p f
end

/-- The editor-visible state that `GSettingsEditor.accept_change` touches:
the persisted value of the edited key (`Gio.Settings`), the editor's message
label, whether the editor dialog is still open, and the edit tree. -/
structure EditorState where
  storeVal : Option GVal
  message : Option String
  editorOpen : Bool
  tree : TreeNode
deriving Repr

/-- `GSettingsEditor.accept_change` for an existing leaf value at `path` with
entry text `editText` and declared key type `keyType`.  Inside the `try`
block the code (1) coerces the entry text with the current value's Python
type — with the special case sending `'False'` to the boolean `False` first —
(2) stores the result in the `GiValue` via `set_value`, (3) rebuilds the
key's variant from the tree, and only then (4) writes the settings store;
any exception lands in the `except` handler, which writes the message label
and keeps the editor open (`is_ok = False` prevents `destroy`). -/
def accept_change (st : EditorState) (path : List Nat) (editText : String)
    (keyType : String) : EditorState :=
  match (getAt st.tree path).bind (fun gi => gi.value.bind pyTypeOf) with
  | none => st
  | some t =>
    let coerced : Except String PyVal :=
      if t = .tBool ∧ editText = "False" then .ok (.pyBool false)
      else pyCoerce t editText
    match coerced with
    | .error e => { st with message := some e, editorOpen := true }
    | .ok nv =>
      let t2 := setAt st.tree path (fun gi => gi.set_value nv)
      match rebuild_item t2 keyType with
      | .ok variant =>
        { storeVal := some variant, message := st.message,
          editorOpen := false, tree := t2 }
      | .error e =>
        { storeVal := st.storeVal, message := some e,
          editorOpen := true, tree := t2 }

/-! ### Basic facts about the Python string-membership embedding -/

theorem listSub_single_iff (c : Char) : ∀ l : List Char, listSub [c] l = true ↔ c ∈ l
  | [] => by simp [listSub, List.isEmpty]
  | x :: t => by
    simp [listSub, List.isPrefixOf, listSub_single_iff c t]

theorem charIn_iff_mem (c : Char) (s : String) : charIn c s = true ↔ c ∈ s.toList := by
  simp [charIn]

theorem listSub_single_eq_charIn (c : Char) (s : String) :
    listSub [c] s.toList = charIn c s := by
  rw [Bool.eq_iff_iff, listSub_single_iff, charIn_iff_mem]

theorem listSub_head_mem {c : Char} {cs l : List Char} (h : listSub (c :: cs) l = true) :
    c ∈ l := by
  induction l with
  | nil => simp [listSub, List.isEmpty] at h
  | cons x t ih =>
    simp only [listSub, Bool.or_eq_true] at h
    rcases h with h | h
    · simp only [List.isPrefixOf, Bool.and_eq_true, beq_iff_eq] at h
      simp [h.1]
    · simp [ih h]

theorem listSub_head_not {c : Char} {cs l : List Char} (h : c ∉ l) :
    listSub (c :: cs) l = false := by
  by_contra hc
  exact h (listSub_head_mem (by simpa using hc))

/-! ### Signature shape facts -/

/-- First character of a rendered signature. -/
def sigHead : Sig → Char
  | .base c => c
  | .variant => 'v'
  | .maybe _ => 'm'
  | .array _ => 'a'
  | .dict _ => 'a'
  | .tuple _ => '('

theorem sigChars_cons : ∀ s : Sig, ∃ r, sigChars s = sigHead s :: r
  | .base _ => ⟨[], rfl⟩
  | .variant => ⟨[], rfl⟩
  | .maybe s => ⟨sigChars s, rfl⟩
  | .array s => ⟨sigChars s, rfl⟩
  | .dict v => ⟨'\x7b' :: 's' :: (sigChars v ++ ['\x7d']), rfl⟩
  | .tuple ss => ⟨sigCharsList ss ++ [')'], rfl⟩

theorem sigChars_length_pos (s : Sig) : 1 ≤ (sigChars s).length := by
  obtain ⟨r, hr⟩ := sigChars_cons s
  simp [hr]

theorem base_chars_fact :
    ∀ c ∈ GlVariant.base_type_sig.toList,
      c ≠ 'm' ∧ c ≠ 'a' ∧ c ≠ '(' ∧ c ≠ 'v' ∧ c ≠ ')' ∧ c ≠ '\x7b' ∧ c ≠ '\x7d' ∧ c ≠ '@' := by
  decide

theorem sigOk_head (s : Sig) (h : sigOk s = true) :
    sigHead s ≠ '\x7b' ∧ sigHead s ≠ ')' := by
  cases s with
  | base c =>
    have := base_chars_fact c (by rw [← charIn_iff_mem]; exact h)
    exact ⟨this.2.2.2.2.2.1, this.2.2.2.2.1⟩
  | variant => exact ⟨by simp [sigHead], by simp [sigHead]⟩
  | maybe s => exact ⟨by simp [sigHead], by simp [sigHead]⟩
  | array s => exact ⟨by simp [sigHead], by simp [sigHead]⟩
  | dict v => exact ⟨by simp [sigHead], by simp [sigHead]⟩
  | tuple ss => exact ⟨by simp [sigHead], by simp [sigHead]⟩

theorem pyIn_singleton (c : Char) (s : String) :
    pyIn (String.singleton c) s = charIn c s := by
  rw [Bool.eq_iff_iff]
  have h1 : (String.singleton c).toList = [c] := rfl
  rw [pyIn, h1, listSub_single_iff, charIn_iff_mem]

theorem headChar_mk (c : Char) (l : List Char) : headChar (String.mk (c :: l)) = c := rfl

theorem pyIn_head_false {c : Char} (h : charIn c GlVariant.base_type_sig = false)
    (l : List Char) : pyIn (String.mk (c :: l)) GlVariant.base_type_sig = false := by
  apply listSub_head_not
  intro hm
  rw [show GlVariant.base_type_sig.toList = "bynqiuxtdsog".toList from rfl] at hm
  have : charIn c GlVariant.base_type_sig = true := by
    rw [charIn_iff_mem]; exact hm
  simp [this] at h

theorem pyIn_va_false {c : Char} (h1 : c ≠ 'v') (h2 : c ≠ '@') (l : List Char) :
    pyIn (String.mk (c :: l)) "v@" = false := by
  apply listSub_head_not
  simp [h1, h2]

/-! ### `parse_key` shape per value constructor -/

theorem charIn_ynqiuxtd_base {c : Char} (h : charIn c "ynqiuxtd" = true) :
    charIn c GlVariant.base_type_sig = true := by
  rw [charIn_iff_mem] at h ⊢
  have : ∀ c ∈ "ynqiuxtd".toList, c ∈ GlVariant.base_type_sig.toList := by decide
  exact this c h

theorem charIn_sog_base {c : Char} (h : charIn c "sog" = true) :
    charIn c GlVariant.base_type_sig = true := by
  rw [charIn_iff_mem] at h ⊢
  have : ∀ c ∈ "sog".toList, c ∈ GlVariant.base_type_sig.toList := by decide
  exact this c h

theorem parse_key_vBool (kid : Bool) (n : String) (b : Bool) (var : Bool) :
    parse_key kid n (.vBool b) var =
      [.node n (add_gidata (some (.pyBool b)) "b" var) []] := rfl

theorem parse_key_vNum (kid : Bool) (n : String) {c : Char} (x : Int) (var : Bool)
    (h : charIn c "ynqiuxtd" = true) :
    parse_key kid n (.vNum c x) var =
      [.node n (add_gidata (some (unpack (.vNum c x))) (String.singleton c) var) []] := by
  have hb : charIn c GlVariant.base_type_sig = true := charIn_ynqiuxtd_base h
  have h1 : typeString (.vNum c x) = String.singleton c := rfl
  simp only [parse_key, h1]
  rw [show headChar (String.singleton c) = c from rfl, pyIn_singleton, hb]
  simp

theorem parse_key_vStr (kid : Bool) (n : String) {c : Char} (s : String) (var : Bool)
    (h : charIn c "sog" = true) :
    parse_key kid n (.vStr c s) var =
      [.node n (add_gidata (some (.pyStr s)) (String.singleton c) var) []] := by
  have hb : charIn c GlVariant.base_type_sig = true := charIn_sog_base h
  have h1 : typeString (.vStr c s) = String.singleton c := rfl
  simp only [parse_key, h1]
  rw [show headChar (String.singleton c) = c from rfl, pyIn_singleton, hb]
  simp [unpack]

theorem parse_key_vArray (kid : Bool) (n : String) {e : Sig} (xs : List GVal) (var : Bool)
    (h : sigOk e = true) :
    parse_key kid n (.vArray e xs) var =
      [.node n (add_gidata none (typeString (.vArray e xs)) var) (parse_elems 0 xs)] := by
  obtain ⟨r, hr⟩ := sigChars_cons e
  have htv : typeString (.vArray e xs) = String.mk ('a' :: sigChars e) := rfl
  have hleaf : pyIn (String.singleton (headChar (String.mk ('a' :: sigChars e))))
      GlVariant.base_type_sig = false := by
    rw [headChar_mk, pyIn_singleton]; decide
  have hva : pyIn (String.mk ('a' :: sigChars e)) "v@" = false :=
    pyIn_va_false (by decide) (by decide) _
  have hstart : strStarts (String.mk ('a' :: sigChars e)) "a\x7b" = false := by
    rw [strStarts]
    rw [show (String.mk ('a' :: sigChars e)).toList = 'a' :: sigChars e from rfl, hr]
    have hne := (sigOk_head e h).1
    simp only [List.isPrefixOf, List.isPrefixOf_nil_left, Bool.and_true, beq_iff_eq,
      decide_eq_true_eq, Bool.and_eq_false_iff, decide_eq_false_iff_not]
    simp
    exact fun hh => hne hh.symm
  have hacp : pyIn (String.singleton (headChar (String.mk ('a' :: sigChars e)))) "a([" = true := by
    rw [headChar_mk, pyIn_singleton]; decide
  simp only [parse_key, htv, hleaf, hva, hstart, hacp]
  simp

theorem parse_key_vTuple (kid : Bool) (n : String) (xs : List GVal) (var : Bool) :
    parse_key kid n (.vTuple xs) var =
      [.node n (add_gidata none (typeString (.vTuple xs)) var) (parse_elems 0 xs)] := by
  have htv : typeString (.vTuple xs) =
      String.mk ('(' :: (sigCharsList (sigOfList xs) ++ [')'])) := rfl
  have hleaf : pyIn (String.singleton (headChar (String.mk
      ('(' :: (sigCharsList (sigOfList xs) ++ [')'])))))
      GlVariant.base_type_sig = false := by
    rw [headChar_mk, pyIn_singleton]; decide
  have hva : pyIn (String.mk ('(' :: (sigCharsList (sigOfList xs) ++ [')']))) "v@" = false :=
    pyIn_va_false (by decide) (by decide) _
  have hstart : strStarts (String.mk ('(' :: (sigCharsList (sigOfList xs) ++ [')'])))
      "a\x7b" = false := by
    rw [strStarts]
    rw [show (String.mk ('(' :: (sigCharsList (sigOfList xs) ++ [')']))).toList =
      '(' :: (sigCharsList (sigOfList xs) ++ [')']) from rfl]
    simp [List.isPrefixOf]
  have hacp : pyIn (String.singleton (headChar (String.mk
      ('(' :: (sigCharsList (sigOfList xs) ++ [')']))))) "a([" = true := by
    rw [headChar_mk, pyIn_singleton]; decide
  simp only [parse_key, htv, hleaf, hva, hstart, hacp]
  simp

theorem parse_key_vDict (kid : Bool) (n : String) (v : Sig) (es : List (String × GVal))
    (var : Bool) :
    parse_key kid n (.vDict v es) var =
      [.node n (add_gidata none (typeString (.vDict v es)) var) (parse_entries es)] := by
  have htv : typeString (.vDict v es) =
      String.mk ('a' :: '\x7b' :: 's' :: (sigChars v ++ ['\x7d'])) := rfl
  have hleaf : pyIn (String.singleton (headChar (String.mk
      ('a' :: '\x7b' :: 's' :: (sigChars v ++ ['\x7d'])))))
      GlVariant.base_type_sig = false := by
    rw [headChar_mk, pyIn_singleton]; decide
  have hva : pyIn (String.mk ('a' :: '\x7b' :: 's' :: (sigChars v ++ ['\x7d']))) "v@" = false :=
    pyIn_va_false (by decide) (by decide) _
  have hstart : strStarts (String.mk ('a' :: '\x7b' :: 's' :: (sigChars v ++ ['\x7d'])))
      "a\x7b" = true := by
    rw [strStarts]
    rw [show (String.mk ('a' :: '\x7b' :: 's' :: (sigChars v ++ ['\x7d']))).toList =
      'a' :: '\x7b' :: 's' :: (sigChars v ++ ['\x7d']) from rfl]
    simp [List.isPrefixOf]
  simp only [parse_key, htv, hleaf, hva, hstart]
  simp

theorem parse_key_vMaybe (kid : Bool) (n : String) (i : Sig) (w : Option GVal) (var : Bool) :
    parse_key kid n (.vMaybe i w) var =
      [.node n (add_gidata none (typeString (.vMaybe i w)) var)
        (match w with
          | none => []
          | some x => parse_key false "0" x false)] := by
  cases w with
  | none => rfl
  | some x => rfl

theorem parse_key_vVariant_root (n : String) (w : GVal) (var : Bool) :
    parse_key true n (.vVariant w) var =
      [.node n (add_gidata none "v" var) (parse_key false n w true)] := rfl

theorem parse_key_vVariant_nested (n : String) (w : GVal) (var : Bool) :
    parse_key false n (.vVariant w) var = parse_key false n w true := rfl

/-! ### `gather_variant` shape per stored type string -/

theorem gather_not_compound (n : String) (gi : GiValue) (cs : List TreeNode) (cont : Bool)
    (h : gi.compound = false) :
    gather_variant (.node n gi cs) cont = .ok (gi.value.getD .pyNone) := by
  cases gi
  cases h
  rfl

theorem gather_node_dict (n : String) (v : Sig) (es : List (String × GVal)) (var cont : Bool)
    (cs : List TreeNode) :
    gather_variant (.node n (add_gidata none (typeString (.vDict v es)) var) cs) cont =
      variant_wrap (add_gidata none (typeString (.vDict v es)) var)
        (dict_stage (typeString (.vDict v es)) cont (gather_dict [] cs)) := rfl

theorem gather_node_tuple (n : String) (xs : List GVal) (var cont : Bool)
    (cs : List TreeNode) :
    gather_variant (.node n (add_gidata none (typeString (.vTuple xs)) var) cs) cont =
      variant_wrap (add_gidata none (typeString (.vTuple xs)) var)
        (list_stage (typeString (.vTuple xs)) cont (gather_list cs)) := rfl

theorem gather_node_variant (n : String) (var cont : Bool) (cs : List TreeNode) :
    gather_variant (.node n (add_gidata none "v" var) cs) cont =
      variant_wrap (add_gidata none "v" var) (variant_stage cs) := rfl

theorem gather_node_maybe (n : String) (i : Sig) (w : Option GVal) (var cont : Bool)
    (cs : List TreeNode) :
    gather_variant (.node n (add_gidata none (typeString (.vMaybe i w)) var) cs) cont =
      variant_wrap (add_gidata none (typeString (.vMaybe i w)) var)
        (maybe_stage (typeString (.vMaybe i w)) cs) := rfl

theorem gather_node_array (n : String) {e : Sig} (xs : List GVal) (var cont : Bool)
    (cs : List TreeNode) (h : sigOk e = true) :
    gather_variant (.node n (add_gidata none (typeString (.vArray e xs)) var) cs) cont =
      variant_wrap (add_gidata none (typeString (.vArray e xs)) var)
        (list_stage (typeString (.vArray e xs)) cont (gather_list cs)) := by
  obtain ⟨r, hr⟩ := sigChars_cons e
  have htv : typeString (.vArray e xs) = String.mk ('a' :: sigChars e) := rfl
  have hstart : strStarts (String.mk ('a' :: sigChars e)) "a\x7b" = false := by
    rw [strStarts]
    rw [show (String.mk ('a' :: sigChars e)).toList = 'a' :: sigChars e from rfl, hr]
    have hne := (sigOk_head e h).1
    simp [List.isPrefixOf]
    exact fun hh => hne hh.symm
  show variant_wrap _
      (if strStarts (typeString (.vArray e xs)) "a\x7b" then
        dict_stage (typeString (.vArray e xs)) cont (gather_dict [] cs)
      else if pyIn (String.singleton (headChar (typeString (.vArray e xs)))) "a[(" then
        list_stage (typeString (.vArray e xs)) cont (gather_list cs)
      else if pyIn (String.singleton (headChar (typeString (.vArray e xs)))) "v@" then
        variant_stage cs
      else if headChar (typeString (.vArray e xs)) = 'm' then
        maybe_stage (typeString (.vArray e xs)) cs
      else
        scalar_stage (typeString (.vArray e xs)) cont none) = _
  rw [htv, hstart]
  rw [show headChar (String.mk ('a' :: sigChars e)) = 'a' from rfl]
  rw [show pyIn (String.singleton 'a') "a[(" = true from by decide]
  simp


/-! ### Completeness of the signature reader on rendered signatures -/

theorem readSig_m (f : Nat) (r : List Char) :
    readSig (f + 1) ('m' :: r) = mRes (readSig f r) := rfl

theorem readSig_a_dict (f : Nat) (r2 : List Char) :
    readSig (f + 1) ('a' :: '\x7b' :: 's' :: r2) = dRes (readSig f r2) := rfl

theorem readSig_a_other (f : Nat) (c : Char) (t : List Char) (hne : c ≠ '\x7b') :
    readSig (f + 1) ('a' :: c :: t) = aRes (readSig f (c :: t)) := by
  simp only [readSig]
  rw [if_neg (by decide), if_pos trivial]
  split
  · rename_i r2 heq
    exact absurd (by injection heq) hne
  · rfl

theorem readSig_paren (f : Nat) (r : List Char) :
    readSig (f + 1) ('(' :: r) = tRes (readTupleSig f r) := rfl

theorem readSig_base (f : Nat) (c : Char) (r : List Char)
    (h : charIn c GlVariant.base_type_sig = true) :
    readSig (f + 1) (c :: r) = some (.base c, r) := by
  have hb := base_chars_fact c (by rw [← charIn_iff_mem]; exact h)
  simp only [readSig]
  rw [if_neg hb.1, if_neg hb.2.1, if_neg hb.2.2.1, if_neg hb.2.2.2.1, if_pos h]

theorem readTupleSig_paren (f : Nat) (r : List Char) :
    readTupleSig (f + 1) (')' :: r) = some ([], r) := rfl

theorem readTupleSig_cons (f : Nat) (c : Char) (r : List Char) (hne : c ≠ ')') :
    readTupleSig (f + 1) (c :: r) =
      (readSig f (c :: r)).bind fun p => tupCons p.1 (readTupleSig f p.2) := by
  simp only [readTupleSig]
  rw [if_neg hne]

mutual
theorem readSig_complete : ∀ (s : Sig), sigOk s = true → ∀ (rest : List Char) (f : Nat),
    2 * (sigChars s).length + 1 ≤ f → readSig f (sigChars s ++ rest) = some (s, rest)
  | .base c, h, rest, f, hf => by
    cases f with
    | zero => omega
    | succ f' =>
      have h' : charIn c GlVariant.base_type_sig = true := h
      rw [show sigChars (Sig.base c) ++ rest = c :: rest from rfl]
      exact readSig_base f' c rest h'
  | .variant, _, rest, f, hf => by
    cases f with
    | zero => omega
    | succ f' =>
      rfl
  | .maybe s, h, rest, f, hf => by
    cases f with
    | zero => omega
    | succ f' =>
      have hok : sigOk s = true := h
      have hlen : (sigChars (Sig.maybe s)).length = (sigChars s).length + 1 := by
        simp [sigChars]
      rw [hlen] at hf
      rw [show sigChars (Sig.maybe s) ++ rest = 'm' :: (sigChars s ++ rest) from by
        simp [sigChars]]
      rw [readSig_m, readSig_complete s hok rest f' (by omega)]
      rfl
  | .array s, h, rest, f, hf => by
    cases f with
    | zero => omega
    | succ f' =>
      have hok : sigOk s = true := h
      have hlen : (sigChars (Sig.array s)).length = (sigChars s).length + 1 := by
        simp [sigChars]
      rw [hlen] at hf
      obtain ⟨tail, htail⟩ := sigChars_cons s
      have hne : sigHead s ≠ '\x7b' := (sigOk_head s hok).1
      rw [show sigChars (Sig.array s) ++ rest = 'a' :: sigHead s :: (tail ++ rest) from by
        simp [sigChars, htail]]
      rw [readSig_a_other f' (sigHead s) (tail ++ rest) hne]
      rw [show sigHead s :: (tail ++ rest) = sigChars s ++ rest from by simp [htail]]
      rw [readSig_complete s hok rest f' (by omega)]
      rfl
  | .dict v, h, rest, f, hf => by
    cases f with
    | zero => omega
    | succ f' =>
      have hok : sigOk v = true := h
      have hlen : (sigChars (Sig.dict v)).length = (sigChars v).length + 4 := by
        simp [sigChars]
      rw [hlen] at hf
      rw [show sigChars (Sig.dict v) ++ rest =
        'a' :: '\x7b' :: 's' :: (sigChars v ++ ('\x7d' :: rest)) from by
        simp [sigChars]]
      rw [readSig_a_dict, readSig_complete v hok ('\x7d' :: rest) f' (by omega)]
      rfl
  | .tuple ss, h, rest, f, hf => by
    cases f with
    | zero => omega
    | succ f' =>
      have hok : sigOkList ss = true := h
      have hlen : (sigChars (Sig.tuple ss)).length = (sigCharsList ss).length + 2 := by
        simp [sigChars]
      rw [hlen] at hf
      rw [show sigChars (Sig.tuple ss) ++ rest =
        '(' :: (sigCharsList ss ++ (')' :: rest)) from by simp [sigChars]]
      rw [readSig_paren, readTupleSig_complete ss hok rest f' (by omega)]
      rfl

theorem readTupleSig_complete : ∀ (ss : List Sig), sigOkList ss = true →
    ∀ (rest : List Char) (f : Nat), 2 * (sigCharsList ss).length + 2 ≤ f →
    readTupleSig f (sigCharsList ss ++ ')' :: rest) = some (ss, rest)
  | [], _, rest, f, hf => by
    cases f with
    | zero => omega
    | succ f' =>
      rw [show sigCharsList [] ++ ')' :: rest = ')' :: rest from rfl]
      exact readTupleSig_paren f' rest
  | s :: ss, h, rest, f, hf => by
    cases f with
    | zero => omega
    | succ f' =>
      have hsplit : sigOk s = true ∧ sigOkList ss = true := by
        have hh : (sigOk s && sigOkList ss) = true := h
        constructor
        · exact (Bool.and_elim_left hh)
        · exact (Bool.and_elim_right hh)
      have hlen : (sigCharsList (s :: ss)).length =
          (sigChars s).length + (sigCharsList ss).length := by
        simp [sigCharsList]
      rw [hlen] at hf
      have hs1 : 1 ≤ (sigChars s).length := sigChars_length_pos s
      obtain ⟨tail, htail⟩ := sigChars_cons s
      have hne : sigHead s ≠ ')' := (sigOk_head s hsplit.1).2
      rw [show sigCharsList (s :: ss) ++ ')' :: rest =
        sigHead s :: (tail ++ (sigCharsList ss ++ ')' :: rest)) from by
        simp [sigCharsList, htail]]
      rw [readTupleSig_cons f' (sigHead s) _ hne]
      rw [show sigHead s :: (tail ++ (sigCharsList ss ++ ')' :: rest)) =
        sigChars s ++ (sigCharsList ss ++ ')' :: rest) from by simp [htail]]
      rw [readSig_complete s hsplit.1 _ f' (by omega)]
      simp only [Option.some_bind]
      rw [readTupleSig_complete ss hsplit.2 rest f' (by omega)]
      rfl
end

theorem toSig_complete (s : Sig) (h : sigOk s = true) : toSig (sigChars s) = some s := by
  have h1 : readSig (2 * (sigChars s).length + 2) (sigChars s ++ []) = some (s, []) :=
    readSig_complete s h [] _ (by omega)
  rw [List.append_nil] at h1
  simp only [toSig, h1]

/-! ### `make` rebuilds plain well-typed values from their Python view -/

mutual
theorem plain_sigOk : ∀ (v : GVal), plain v = true → sigOk (sigOf v) = true
  | .vBool _, _ => rfl
  | .vNum c n, h => charIn_ynqiuxtd_base (by simpa [plain] using h)
  | .vStr c s, h => charIn_sog_base (by simpa [plain] using h)
  | .vArray e xs, h => by
    have : sigOk e = true := by
      have hh : (sigOk e && plainList xs) = true := h
      exact Bool.and_elim_left hh
    simpa [sigOf, sigOk] using this
  | .vDict v es, h => by
    have : sigOk v = true := by
      have hh : (sigOk v && plainEntries es) = true := h
      exact Bool.and_elim_left hh
    simpa [sigOf, sigOk] using this
  | .vTuple xs, h => by
    have : sigOkList (sigOfList xs) = true := plainList_sigOk xs h
    simpa [sigOf, sigOk] using this

theorem plainList_sigOk : ∀ (xs : List GVal), plainList xs = true →
    sigOkList (sigOfList xs) = true
  | [], _ => rfl
  | x :: xs, h => by
    have hh : (plain x && plainList xs) = true := h
    simp only [sigOfList, sigOkList, Bool.and_eq_true]
    exact ⟨plain_sigOk x (Bool.and_elim_left hh), plainList_sigOk xs (Bool.and_elim_right hh)⟩
end

theorem num_chars_split : ∀ c ∈ "ynqiuxtd".toList, c = 'd' ∨ c ∈ "ynqiuxt".toList := by
  decide

theorem num7_facts : ∀ c ∈ "ynqiuxt".toList,
    ¬c = 'm' ∧ ¬c = 'a' ∧ ¬c = '(' ∧ ¬c = 'v' ∧ ¬c = 'b' ∧ ¬c = 'd' ∧
      charIn c "ynqiuxt" = true := by
  decide

theorem sog_facts : ∀ c ∈ "sog".toList,
    ¬c = 'm' ∧ ¬c = 'a' ∧ ¬c = '(' ∧ ¬c = 'v' ∧ ¬c = 'b' ∧ ¬c = 'd' ∧
      charIn c "ynqiuxt" = false ∧ charIn c "sog" = true := by
  decide

mutual
theorem make_ok : ∀ (v : GVal), plain v = true → wellTyped v = true →
    ∀ f, pySize (toPy v) + 2 * (sigChars (sigOf v)).length + 2 ≤ f →
    make f (sigChars (sigOf v)) (toPy v) = .ok v
  | .vBool b, _, _, f, hf => by
    cases f with
    | zero => omega
    | succ f' => rfl
  | .vNum c n, hp, _, f, hf => by
    cases f with
    | zero => omega
    | succ f' =>
      have hc : c ∈ "ynqiuxtd".toList := by
        rw [← charIn_iff_mem]
        simpa [plain] using hp
      rcases num_chars_split c hc with hd | h7
      · subst hd
        rfl
      · have hfacts := num7_facts c h7
        have htoPy : toPy (.vNum c n) = .pyInt n := by
          simp [toPy, hfacts.2.2.2.2.2.1]
        have hsig : sigChars (sigOf (.vNum c n)) = [c] := rfl
        rw [htoPy, hsig]
        simp only [make]
        rw [if_neg hfacts.1, if_neg hfacts.2.1, if_neg hfacts.2.2.1]
        rw [if_pos (show ([] : List Char).isEmpty = true from rfl)]
        rw [if_neg hfacts.2.2.2.1, if_neg hfacts.2.2.2.2.1, if_neg hfacts.2.2.2.2.2.1]
        rw [if_pos hfacts.2.2.2.2.2.2]
  | .vStr c s, hp, _, f, hf => by
    cases f with
    | zero => omega
    | succ f' =>
      have hc : c ∈ "sog".toList := by
        rw [← charIn_iff_mem]
        simpa [plain] using hp
      have hfacts := sog_facts c hc
      have hsig : sigChars (sigOf (.vStr c s)) = [c] := rfl
      have htoPy : toPy (.vStr c s) = .pyStr s := rfl
      rw [htoPy, hsig]
      simp only [make]
      rw [if_neg hfacts.1, if_neg hfacts.2.1, if_neg hfacts.2.2.1]
      rw [if_pos (show ([] : List Char).isEmpty = true from rfl)]
      rw [if_neg hfacts.2.2.2.1, if_neg hfacts.2.2.2.2.1, if_neg hfacts.2.2.2.2.2.1]
      rw [if_neg (by simp [hfacts.2.2.2.2.2.2.1])]
      rw [if_pos hfacts.2.2.2.2.2.2.2]
  | .vArray e xs, hp, hw, f, hf => by
    cases f with
    | zero => omega
    | succ f' =>
      have hpl : (sigOk e && plainList xs) = true := hp
      have hok : sigOk e = true := Bool.and_elim_left hpl
      have hxs : plainList xs = true := Bool.and_elim_right hpl
      have hwt : wtElems e xs = true := hw
      have hsig : sigChars (sigOf (.vArray e xs)) = 'a' :: sigChars e := rfl
      have htoPy : toPy (.vArray e xs) = .pyList (toPyList xs) := rfl
      have hfuel : pySizeList (toPyList xs) + 2 * (sigChars e).length + 2 ≤ f' := by
        rw [hsig, htoPy] at hf
        simp only [pySize, List.length_cons] at hf
        omega
      rw [htoPy, hsig]
      simp only [make]
      rw [if_neg (by decide), if_pos trivial]
      obtain ⟨tail, htail⟩ := sigChars_cons e
      have hne := (sigOk_head e hok).1
      split
      · rename_i r2 heq
        rw [htail] at heq
        exact absurd (by injection heq) hne
      · rw [toSig_complete e hok]
        rw [makeElems_ok xs e hxs hwt hok f' hfuel]
  | .vDict dv es, hp, hw, f, hf => by
    cases f with
    | zero => omega
    | succ f' =>
      have hpl : (sigOk dv && plainEntries es) = true := hp
      have hok : sigOk dv = true := Bool.and_elim_left hpl
      have hes : plainEntries es = true := Bool.and_elim_right hpl
      have hwt : wtEntries dv es = true := hw
      have hsig : sigChars (sigOf (.vDict dv es)) =
          'a' :: '\x7b' :: 's' :: (sigChars dv ++ ['\x7d']) := rfl
      have htoPy : toPy (.vDict dv es) = .pyDict (toPyEntries es) := rfl
      have hfuel : pySizeEntries (toPyEntries es) + 2 * (sigChars dv).length + 2 ≤ f' := by
        rw [hsig, htoPy] at hf
        simp only [pySize, List.length_cons, List.length_append, List.length_singleton] at hf
        omega
      rw [htoPy, hsig]
      simp only [make]
      rw [if_neg (by decide), if_pos trivial]
      rw [if_pos (show ((sigChars dv ++ ['\x7d']).getLast? = some '\x7d') from by
        simp [List.getLast?_concat])]
      rw [List.dropLast_concat, toSig_complete dv hok]
      rw [makeEntries_ok es dv hes hwt hok f' hfuel]
  | .vTuple xs, hp, hw, f, hf => by
    cases f with
    | zero => omega
    | succ f' =>
      have hxs : plainList xs = true := hp
      have hwt : wtList xs = true := hw
      have hsig : sigChars (sigOf (.vTuple xs)) =
          '(' :: (sigCharsList (sigOfList xs) ++ [')']) := rfl
      have htoPy : toPy (.vTuple xs) = .pyList (toPyList xs) := rfl
      have hfuel : pySizeList (toPyList xs) +
          2 * (sigCharsList (sigOfList xs)).length + 2 ≤ f' := by
        rw [hsig, htoPy] at hf
        simp only [pySize, List.length_cons, List.length_append, List.length_singleton] at hf
        omega
      rw [htoPy, hsig]
      simp only [make]
      rw [if_neg (by decide), if_neg (by decide), if_pos trivial]
      rw [makeTup_ok xs hxs hwt f' hfuel]
  | .vMaybe i w, hp, _, _, _ => by
    simp [plain] at hp
  | .vVariant w, hp, _, _, _ => by
    simp [plain] at hp

theorem makeElems_ok : ∀ (xs : List GVal) (e : Sig), plainList xs = true →
    wtElems e xs = true → sigOk e = true →
    ∀ f, pySizeList (toPyList xs) + 2 * (sigChars e).length + 2 ≤ f →
    makeElems f (sigChars e) (toPyList xs) = .ok xs
  | [], e, _, _, _, f, hf => by
    cases f with
    | zero => omega
    | succ f' => rfl
  | x :: xs, e, hp, hw, hok, f, hf => by
    cases f with
    | zero => omega
    | succ f' =>
      have hpx : plain x = true := Bool.and_elim_left hp
      have hpxs : plainList xs = true := Bool.and_elim_right hp
      have hwx : (decide (sigOf x = e) && wellTyped x && wtElems e xs) = true := hw
      have hsigeq : sigOf x = e := by
        have := Bool.and_elim_left (Bool.and_elim_left hwx)
        exact of_decide_eq_true this
      have hwtx : wellTyped x = true := Bool.and_elim_right (Bool.and_elim_left hwx)
      have hwtxs : wtElems e xs = true := Bool.and_elim_right hwx
      have htoPy : toPyList (x :: xs) = toPy x :: toPyList xs := rfl
      have hsz : pySizeList (toPyList (x :: xs)) =
          1 + pySize (toPy x) + pySizeList (toPyList xs) := rfl
      rw [htoPy]
      simp only [makeElems]
      rw [show sigChars e = sigChars (sigOf x) from by rw [hsigeq]]
      rw [make_ok x hpx hwtx f' (by rw [hsz] at hf; rw [hsigeq]; omega)]
      rw [show sigChars (sigOf x) = sigChars e from by rw [hsigeq]]
      rw [makeElems_ok xs e hpxs hwtxs hok f' (by rw [hsz] at hf; omega)]

theorem makeTup_ok : ∀ (xs : List GVal), plainList xs = true → wtList xs = true →
    ∀ f, pySizeList (toPyList xs) + 2 * (sigCharsList (sigOfList xs)).length + 2 ≤ f →
    makeTupElems f (sigCharsList (sigOfList xs) ++ [')']) (toPyList xs) = .ok xs
  | [], _, _, f, hf => by
    cases f with
    | zero => omega
    | succ f' => rfl
  | x :: xs, hp, hw, f, hf => by
    cases f with
    | zero => omega
    | succ f' =>
      have hpx : plain x = true := Bool.and_elim_left hp
      have hpxs : plainList xs = true := Bool.and_elim_right hp
      have hwx : wellTyped x = true := Bool.and_elim_left hw
      have hwxs : wtList xs = true := Bool.and_elim_right hw
      have hokx : sigOk (sigOf x) = true := plain_sigOk x hpx
      obtain ⟨tail, htail⟩ := sigChars_cons (sigOf x)
      have hne : sigHead (sigOf x) ≠ ')' := (sigOk_head _ hokx).2
      have hshape : sigCharsList (sigOfList (x :: xs)) ++ [')'] =
          sigHead (sigOf x) :: (tail ++ (sigCharsList (sigOfList xs) ++ [')'])) := by
        simp [sigOfList, sigCharsList, htail]
      have hsz : pySizeList (toPyList (x :: xs)) =
          1 + pySize (toPy x) + pySizeList (toPyList xs) := rfl
      have hlensum : (sigCharsList (sigOfList (x :: xs))).length =
          (sigChars (sigOf x)).length + (sigCharsList (sigOfList xs)).length := by
        simp [sigOfList, sigCharsList]
      rw [show toPyList (x :: xs) = toPy x :: toPyList xs from rfl]
      rw [hshape]
      simp only [makeTupElems]
      split
      · rename_i heq
        exact absurd heq (by simp)
      · rename_i after heq
        exact absurd (by injection heq) hne
      · rename_i heq hne2
        have hfu1 : pySize (toPy x) + 2 * (sigChars (sigOf x)).length + 2 ≤ f' := by
          rw [hsz, hlensum] at hf
          omega
        have hfu2 : pySizeList (toPyList xs) +
            2 * (sigCharsList (sigOfList xs)).length + 2 ≤ f' := by
          rw [hsz, hlensum] at hf
          have := sigChars_length_pos (sigOf x)
          omega
        rw [show sigHead (sigOf x) :: (tail ++ (sigCharsList (sigOfList xs) ++ [')'])) =
          sigChars (sigOf x) ++ (sigCharsList (sigOfList xs) ++ [')']) from by simp [htail]]
        rw [readSig_complete (sigOf x) hokx (sigCharsList (sigOfList xs) ++ [')'])
          (2 * (sigChars (sigOf x) ++ (sigCharsList (sigOfList xs) ++ [')'])).length + 2)
          (by simp only [List.length_append]; omega)]
        dsimp only
        rw [make_ok x hpx hwx f' hfu1]
        rw [makeTup_ok xs hpxs hwxs f' hfu2]

theorem makeEntries_ok : ∀ (es : List (String × GVal)) (A : Sig), plainEntries es = true →
    wtEntries A es = true → sigOk A = true →
    ∀ f, pySizeEntries (toPyEntries es) + 2 * (sigChars A).length + 2 ≤ f →
    makeEntries f (sigChars A) (toPyEntries es) = .ok es
  | [], _, _, _, _, f, hf => by
    cases f with
    | zero => omega
    | succ f' => rfl
  | (k, x) :: es, A, hp, hw, hok, f, hf => by
    cases f with
    | zero => omega
    | succ f' =>
      have hpx : plain x = true := Bool.and_elim_left hp
      have hpes : plainEntries es = true := Bool.and_elim_right hp
      have hwx : (decide (sigOf x = A) && wellTyped x && wtEntries A es) = true := hw
      have hsigeq : sigOf x = A := by
        have := Bool.and_elim_left (Bool.and_elim_left hwx)
        exact of_decide_eq_true this
      have hwtx : wellTyped x = true := Bool.and_elim_right (Bool.and_elim_left hwx)
      have hwtes : wtEntries A es = true := Bool.and_elim_right hwx
      have hsz : pySizeEntries (toPyEntries ((k, x) :: es)) =
          1 + pySize (toPy x) + pySizeEntries (toPyEntries es) := rfl
      rw [show toPyEntries ((k, x) :: es) = (k, toPy x) :: toPyEntries es from rfl]
      simp only [makeEntries]
      rw [show sigChars A = sigChars (sigOf x) from by rw [hsigeq]]
      rw [make_ok x hpx hwtx f' (by rw [hsz] at hf; rw [hsigeq]; omega)]
      rw [show sigChars (sigOf x) = sigChars A from by rw [hsigeq]]
      rw [makeEntries_ok es A hpes hwtes hok f' (by rw [hsz] at hf; omega)]
end

/-! ### Decompose-then-gather on the plain fragment -/

/-- The leaf test `tv[0] in GlVariant.base_type_sig` of `parse_key` applied to
a value's own type string. -/
def isLeafTS (v : GVal) : Bool :=
  pyIn (String.singleton (headChar (typeString v))) GlVariant.base_type_sig

/-- Result of gathering a decomposed node with `container=True`: the raw
Python value, except that a compound node carrying the variant mark is
re-wrapped (a leaf node ignores the mark). -/
def gTrue (v : GVal) (var : Bool) : PyVal :=
  if isLeafTS v then toPy v else if var then .pyVariant v else toPy v

/-- Result of gathering a decomposed unmarked node with `container=False`:
leaves stay raw, compounds come back as variants. -/
def gFalse (v : GVal) : PyVal :=
  if isLeafTS v then toPy v else .pyVariant v

theorem gTrue_false (v : GVal) : gTrue v false = toPy v := by
  simp [gTrue]

/-- Python-dict bulk insertion (the recomposition dict loop's effect). -/
def pyFoldIns : List (String × PyVal) → List (String × PyVal) → List (String × PyVal)
  | acc, [] => acc
  | acc, (k, p) :: l => pyFoldIns (dictInsert acc k p) l

theorem glVariant_ok (v : GVal) (hp : plain v = true) (hw : wellTyped v = true) :
    glVariant (typeString v) (toPy v) = .ok v := by
  rw [glVariant]
  rw [show (typeString v).toList = sigChars (sigOf v) from rfl]
  rw [show (typeString v).length = (sigChars (sigOf v)).length from rfl]
  exact make_ok v hp hw _ (le_refl _)

theorem wtElems_wtList : ∀ (e : Sig) (xs : List GVal), wtElems e xs = true → wtList xs = true
  | _, [], _ => rfl
  | e, x :: xs, h => by
    have hh : (decide (sigOf x = e) && wellTyped x && wtElems e xs) = true := h
    simp only [wtList, Bool.and_eq_true]
    exact ⟨Bool.and_elim_right (Bool.and_elim_left hh),
      wtElems_wtList e xs (Bool.and_elim_right hh)⟩

/-- Per-entry well-typedness without the value-signature agreement. -/
def wtVals : List (String × GVal) → Bool
  | [] => true
  | (_, x) :: es => wellTyped x && wtVals es

theorem wtEntries_wtVals : ∀ (A : Sig) (es : List (String × GVal)),
    wtEntries A es = true → wtVals es = true
  | _, [], _ => rfl
  | A, (_, x) :: es, h => by
    have hh : (decide (sigOf x = A) && wellTyped x && wtEntries A es) = true := h
    simp only [wtVals, Bool.and_eq_true]
    exact ⟨Bool.and_elim_right (Bool.and_elim_left hh),
      wtEntries_wtVals A es (Bool.and_elim_right hh)⟩

theorem dictInsert_fresh {α : Type} (k : String) (p : α) :
    ∀ (d : List (String × α)), k ∉ d.map Prod.fst → dictInsert d k p = d ++ [(k, p)]
  | [], _ => rfl
  | (k', p') :: d, h => by
    simp only [List.map_cons, List.mem_cons] at h
    push_neg at h
    simp only [dictInsert]
    rw [if_neg (fun he => h.1 he.symm)]
    rw [dictInsert_fresh k p d h.2]
    simp

theorem pyFoldIns_distinct :
    ∀ (l acc : List (String × PyVal)), strsDistinct (l.map Prod.fst) = true →
      (∀ k ∈ l.map Prod.fst, k ∉ acc.map Prod.fst) → pyFoldIns acc l = acc ++ l
  | [], acc, _, _ => by simp [pyFoldIns]
  | (k, p) :: l, acc, hdist, hfresh => by
    have hh : (!(l.map Prod.fst).contains k && strsDistinct (l.map Prod.fst)) = true := hdist
    have hk : k ∉ acc.map Prod.fst := hfresh k (by simp)
    simp only [pyFoldIns]
    rw [dictInsert_fresh k p acc hk]
    rw [pyFoldIns_distinct l (acc ++ [(k, p)]) (Bool.and_elim_right hh)]
    · simp
    · intro k' hk'
      simp only [List.map_append, List.mem_append]
      push_neg
      refine ⟨fun hc => (hfresh k' (by simp [hk'])) hc, ?_⟩
      simp only [List.map_cons, List.map_nil, List.mem_singleton]
      intro hc
      subst hc
      simp [List.contains, List.elem_iff, hk'] at hh

theorem toPyEntries_keys : ∀ (es : List (String × GVal)),
    (toPyEntries es).map Prod.fst = es.map Prod.fst
  | [] => rfl
  | (k, x) :: es => by
    simp only [toPyEntries, List.map_cons]
    rw [toPyEntries_keys es]

mutual
theorem parse_gather : ∀ (v : GVal), plain v = true → wellTyped v = true →
    dupFree v = true → ∀ (n : String) (var : Bool),
    ∃ t : TreeNode, parse_key false n v var = [t] ∧ t.name = n ∧
      gather_variant t true = .ok (gTrue v var) ∧
      (var = false → gather_variant t false = .ok (gFalse v))
  | .vBool b, _, _, _, n, var =>
    ⟨_, parse_key_vBool false n b var, rfl, rfl, fun _ => rfl⟩
  | .vNum c x, hp, _, _, n, var => by
    have hp' : charIn c "ynqiuxtd" = true := by simpa [plain] using hp
    have hb : charIn c GlVariant.base_type_sig = true := charIn_ynqiuxtd_base hp'
    have hcomp : (add_gidata (some (unpack (.vNum c x))) (String.singleton c) var).compound =
        false := by
      simp [add_gidata, GiValue.factory, pyIn_singleton, hb]
    have hleaf : isLeafTS (.vNum c x) = true := by
      rw [show isLeafTS (.vNum c x) = pyIn (String.singleton c) GlVariant.base_type_sig
        from rfl]
      rw [pyIn_singleton]
      exact hb
    refine ⟨_, parse_key_vNum false n x var hp', rfl, ?_, fun _ => ?_⟩
    · rw [gather_not_compound _ _ _ _ hcomp]
      simp [gTrue, hleaf]
      rfl
    · rw [gather_not_compound _ _ _ _ hcomp]
      simp [gFalse, hleaf]
      rfl
  | .vStr c s, hp, _, _, n, var => by
    have hp' : charIn c "sog" = true := by simpa [plain] using hp
    have hb : charIn c GlVariant.base_type_sig = true := charIn_sog_base hp'
    have hcomp : (add_gidata (some (.pyStr s)) (String.singleton c) var).compound = false := by
      simp [add_gidata, GiValue.factory, pyIn_singleton, hb]
    have hleaf : isLeafTS (.vStr c s) = true := by
      rw [show isLeafTS (.vStr c s) = pyIn (String.singleton c) GlVariant.base_type_sig
        from rfl]
      rw [pyIn_singleton]
      exact hb
    refine ⟨_, parse_key_vStr false n s var hp', rfl, ?_, fun _ => ?_⟩
    · rw [gather_not_compound _ _ _ _ hcomp]
      simp [gTrue, hleaf]
      rfl
    · rw [gather_not_compound _ _ _ _ hcomp]
      simp [gFalse, hleaf]
      rfl
  | .vArray e xs, hp, hw, hd, n, var => by
    have hok : sigOk e = true := Bool.and_elim_left hp
    have hxs : plainList xs = true := Bool.and_elim_right hp
    have hwl : wtList xs = true := wtElems_wtList e xs hw
    have hdl : dupFreeList xs = true := hd
    have hGL : gather_list (parse_elems 0 xs) = .ok (toPyList xs) :=
      (parse_gather_list xs hxs hwl hdl 0).1
    have hnl : isLeafTS (.vArray e xs) = false := rfl
    have hGV : glVariant (typeString (.vArray e xs)) (toPy (.vArray e xs)) =
        .ok (.vArray e xs) := glVariant_ok _ hp hw
    refine ⟨_, parse_key_vArray false n xs var hok, rfl, ?_, fun hv => ?_⟩
    · rw [gather_node_array n xs var true _ hok, hGL]
      simp only [list_stage, if_pos rfl]
      cases var with
      | false => simp [variant_wrap, add_gidata, GiValue.factory, gTrue, hnl, toPy]
      | true =>
        simp only [variant_wrap, add_gidata, GiValue.factory]
        rw [show toPy (.vArray e xs) = .pyList (toPyList xs) from rfl] at hGV
        simp [hGV, gTrue, hnl, Except.map]
    · subst hv
      rw [gather_node_array n xs false false _ hok, hGL]
      simp only [list_stage]
      rw [show toPy (.vArray e xs) = .pyList (toPyList xs) from rfl] at hGV
      simp [variant_wrap, add_gidata, GiValue.factory, hGV, gFalse, hnl, Except.map]
  | .vTuple xs, hp, hw, hd, n, var => by
    have hxs : plainList xs = true := hp
    have hwl : wtList xs = true := hw
    have hdl : dupFreeList xs = true := hd
    have hGL : gather_list (parse_elems 0 xs) = .ok (toPyList xs) :=
      (parse_gather_list xs hxs hwl hdl 0).1
    have hnl : isLeafTS (.vTuple xs) = false := rfl
    have hGV : glVariant (typeString (.vTuple xs)) (toPy (.vTuple xs)) =
        .ok (.vTuple xs) := glVariant_ok _ hp hw
    refine ⟨_, parse_key_vTuple false n xs var, rfl, ?_, fun hv => ?_⟩
    · rw [gather_node_tuple n xs var true _, hGL]
      simp only [list_stage, if_pos rfl]
      cases var with
      | false => simp [variant_wrap, add_gidata, GiValue.factory, gTrue, hnl, toPy]
      | true =>
        simp only [variant_wrap, add_gidata, GiValue.factory]
        rw [show toPy (.vTuple xs) = .pyList (toPyList xs) from rfl] at hGV
        simp [hGV, gTrue, hnl, Except.map]
    · subst hv
      rw [gather_node_tuple n xs false false _, hGL]
      simp only [list_stage]
      rw [show toPy (.vTuple xs) = .pyList (toPyList xs) from rfl] at hGV
      simp [variant_wrap, add_gidata, GiValue.factory, hGV, gFalse, hnl, Except.map]
  | .vDict A es, hp, hw, hd, n, var => by
    have hok : sigOk A = true := Bool.and_elim_left hp
    have hes : plainEntries es = true := Bool.and_elim_right hp
    have hvals : wtVals es = true := wtEntries_wtVals A es hw
    have hdist : strsDistinct (es.map Prod.fst) = true := Bool.and_elim_left hd
    have hdes : dupFreeEntries es = true := Bool.and_elim_right hd
    have hGD : gather_dict [] (parse_entries es) =
        .ok (pyFoldIns [] (toPyEntries es)) :=
      (parse_gather_entries es hes hvals hdes []).1
    have hcollapse : pyFoldIns [] (toPyEntries es) = toPyEntries es := by
      rw [pyFoldIns_distinct (toPyEntries es) []
        (by rw [toPyEntries_keys]; exact hdist) (by simp)]
      simp
    rw [hcollapse] at hGD
    have hnl : isLeafTS (.vDict A es) = false := rfl
    have hGV : glVariant (typeString (.vDict A es)) (toPy (.vDict A es)) =
        .ok (.vDict A es) := glVariant_ok _ hp hw
    refine ⟨_, parse_key_vDict false n A es var, rfl, ?_, fun hv => ?_⟩
    · rw [gather_node_dict n A es var true _, hGD]
      simp only [dict_stage, if_pos rfl]
      cases var with
      | false => simp [variant_wrap, add_gidata, GiValue.factory, gTrue, hnl, toPy]
      | true =>
        simp only [variant_wrap, add_gidata, GiValue.factory]
        rw [show toPy (.vDict A es) = .pyDict (toPyEntries es) from rfl] at hGV
        simp [hGV, gTrue, hnl, Except.map]
    · subst hv
      rw [gather_node_dict n A es false false _, hGD]
      simp only [dict_stage]
      rw [show toPy (.vDict A es) = .pyDict (toPyEntries es) from rfl] at hGV
      simp [variant_wrap, add_gidata, GiValue.factory, hGV, gFalse, hnl, Except.map]
  | .vMaybe i w, hp, _, _, n, var => by
    simp [plain] at hp
  | .vVariant w, hp, _, _, n, var => by
    simp [plain] at hp

theorem parse_gather_list : ∀ (xs : List GVal), plainList xs = true → wtList xs = true →
    dupFreeList xs = true → ∀ i : Nat,
    gather_list (parse_elems i xs) = .ok (toPyList xs) ∧
    (parse_elems i xs).map TreeNode.name = (List.range' i xs.length).map toString
  | [], _, _, _, i => ⟨rfl, rfl⟩
  | x :: xs, hp, hw, hd, i => by
    have hpx : plain x = true := Bool.and_elim_left hp
    have hpxs : plainList xs = true := Bool.and_elim_right hp
    have hwx : wellTyped x = true := Bool.and_elim_left hw
    have hwxs : wtList xs = true := Bool.and_elim_right hw
    have hdx : dupFree x = true := Bool.and_elim_left hd
    have hdxs : dupFreeList xs = true := Bool.and_elim_right hd
    obtain ⟨t, hpk, hname, hgt, _⟩ := parse_gather x hpx hwx hdx (toString i) false
    obtain ⟨hihl, hihn⟩ := parse_gather_list xs hpxs hwxs hdxs (i + 1)
    rw [gTrue_false] at hgt
    constructor
    · rw [show parse_elems i (x :: xs) =
        parse_key false (toString i) x false ++ parse_elems (i + 1) xs from rfl]
      rw [hpk]
      simp only [List.cons_append, List.nil_append, gather_list, List.append_eq]
      rw [hgt, hihl]
      rfl
    · rw [show parse_elems i (x :: xs) =
        parse_key false (toString i) x false ++ parse_elems (i + 1) xs from rfl]
      rw [hpk]
      simp only [List.cons_append, List.nil_append, List.map_cons]
      rw [hihn, hname]
      rw [show List.range' i (x :: xs).length = i :: List.range' (i + 1) xs.length from rfl]
      simp
  
theorem parse_gather_entries : ∀ (es : List (String × GVal)), plainEntries es = true →
    wtVals es = true → dupFreeEntries es = true → ∀ acc : List (String × PyVal),
    gather_dict acc (parse_entries es) = .ok (pyFoldIns acc (toPyEntries es)) ∧
    (parse_entries es).map TreeNode.name = es.map Prod.fst
  | [], _, _, _, acc => ⟨rfl, rfl⟩
  | (k, x) :: es, hp, hw, hd, acc => by
    have hpx : plain x = true := Bool.and_elim_left hp
    have hpes : plainEntries es = true := Bool.and_elim_right hp
    have hwx : wellTyped x = true := Bool.and_elim_left hw
    have hwes : wtVals es = true := Bool.and_elim_right hw
    have hdx : dupFree x = true := Bool.and_elim_left hd
    have hdes : dupFreeEntries es = true := Bool.and_elim_right hd
    obtain ⟨t, hpk, hname, hgt, _⟩ := parse_gather x hpx hwx hdx k false
    obtain ⟨hihl, hihn⟩ := parse_gather_entries es hpes hwes hdes (dictInsert acc k (toPy x))
    rw [gTrue_false] at hgt
    constructor
    · rw [show parse_entries ((k, x) :: es) =
        parse_key false k x false ++ parse_entries es from rfl]
      rw [hpk]
      simp only [List.cons_append, List.nil_append, gather_dict, List.append_eq]
      rw [hgt]
      simp only [hname]
      rw [hihl]
      rfl
    · rw [show parse_entries ((k, x) :: es) =
        parse_key false k x false ++ parse_entries es from rfl]
      rw [hpk]
      simp only [List.cons_append, List.nil_append, List.map_cons]
      simp [hihn, hname]
end

theorem parse_root_eq (v : GVal) (hp : plain v = true) (n : String) (var : Bool) :
    parse_key true n v var = parse_key false n v var := by
  cases v with
  | vBool b => rw [parse_key_vBool, parse_key_vBool]
  | vNum c x =>
    have hp' : charIn c "ynqiuxtd" = true := by simpa [plain] using hp
    rw [parse_key_vNum true n x var hp', parse_key_vNum false n x var hp']
  | vStr c s =>
    have hp' : charIn c "sog" = true := by simpa [plain] using hp
    rw [parse_key_vStr true n s var hp', parse_key_vStr false n s var hp']
  | vArray e xs =>
    have hok : sigOk e = true := Bool.and_elim_left hp
    rw [parse_key_vArray true n xs var hok, parse_key_vArray false n xs var hok]
  | vDict A es => rw [parse_key_vDict, parse_key_vDict]
  | vTuple xs => rw [parse_key_vTuple, parse_key_vTuple]
  | vMaybe i w => rw [parse_key_vMaybe, parse_key_vMaybe]
  | vVariant w => simp [plain] at hp

/-- Round trip on the maybe-free, variant-free, duplicate-key-free fragment:
decompose, regather and rebuild reproduces the value exactly. -/
theorem round_trip_plain (v : GVal) (hp : plain v = true) (hw : wellTyped v = true)
    (hd : dupFree v = true) : round_trip v = .ok v := by
  obtain ⟨t, hpk, _, _, hgf⟩ := parse_gather v hp hw hd "key" false
  have hgf' := hgf rfl
  have hroot : parse_key true "key" v false = [t] := by
    rw [parse_root_eq v hp "key" false, hpk]
  rw [round_trip, decomposeRoot, hroot]
  rw [show ([t].headD (.node "" (GiValue.factory none "?") [])) = t from rfl]
  rw [rebuild_item.eq_def, hgf']
  cases v with
  | vBool b => exact glVariant_ok _ hp hw
  | vNum c x =>
    rw [show gFalse (.vNum c x) = toPy (.vNum c x) from by
      have hp' : charIn c "ynqiuxtd" = true := by simpa [plain] using hp
      have hb := charIn_ynqiuxtd_base hp'
      have hleaf : isLeafTS (.vNum c x) = true := by
        rw [show isLeafTS (.vNum c x) = pyIn (String.singleton c) GlVariant.base_type_sig
          from rfl, pyIn_singleton]
        exact hb
      simp [gFalse, hleaf]]
    rw [show toPy (.vNum c x) = if c = 'd' then .pyFloat x else .pyInt x from rfl]
    by_cases hc : c = 'd'
    · rw [if_pos hc]
      have := glVariant_ok (.vNum c x) hp hw
      rw [show toPy (.vNum c x) = .pyFloat x from by simp [toPy, hc]] at this
      exact this
    · rw [if_neg hc]
      have := glVariant_ok (.vNum c x) hp hw
      rw [show toPy (.vNum c x) = .pyInt x from by simp [toPy, hc]] at this
      exact this
  | vStr c s =>
    have hp' : charIn c "sog" = true := by simpa [plain] using hp
    have hb := charIn_sog_base hp'
    have hleaf : isLeafTS (.vStr c s) = true := by
      rw [show isLeafTS (.vStr c s) = pyIn (String.singleton c) GlVariant.base_type_sig
        from rfl, pyIn_singleton]
      exact hb
    rw [show gFalse (.vStr c s) = toPy (.vStr c s) from by simp [gFalse, hleaf]]
    rw [show toPy (.vStr c s) = PyVal.pyStr s from rfl]
    have := glVariant_ok (.vStr c s) hp hw
    rw [show toPy (.vStr c s) = PyVal.pyStr s from rfl] at this
    exact this
  | vArray e xs => rfl
  | vDict A es => rfl
  | vTuple xs => rfl
  | vMaybe i w => simp [plain] at hp
  | vVariant w => simp [plain] at hp

/-! ### Dictionary collapse (last write wins) at the value level -/

/-- Bulk dict insertion over GVariant-valued entries (the effect of the
recomposition dict loop before re-encoding). -/
def gFoldIns : List (String × GVal) → List (String × GVal) → List (String × GVal)
  | acc, [] => acc
  | acc, (k, v) :: l => gFoldIns (dictInsert acc k v) l

theorem toPyEntries_dictInsert (k : String) (x : GVal) :
    ∀ d : List (String × GVal),
      toPyEntries (dictInsert d k x) = dictInsert (toPyEntries d) k (toPy x)
  | [] => rfl
  | (k', x') :: d => by
    simp only [dictInsert, toPyEntries]
    by_cases h : k' = k
    · rw [if_pos h, if_pos h]
      rfl
    · rw [if_neg h, if_neg h]
      rw [show toPyEntries ((k', x') :: dictInsert d k x) =
        (k', toPy x') :: toPyEntries (dictInsert d k x) from rfl]
      rw [toPyEntries_dictInsert k x d]

theorem pyFoldIns_toPy : ∀ (es : List (String × GVal)) (acc : List (String × GVal)),
    pyFoldIns (toPyEntries acc) (toPyEntries es) = toPyEntries (gFoldIns acc es)
  | [], acc => rfl
  | (k, x) :: es, acc => by
    rw [show toPyEntries ((k, x) :: es) = (k, toPy x) :: toPyEntries es from rfl]
    rw [show pyFoldIns (toPyEntries acc) ((k, toPy x) :: toPyEntries es) =
      pyFoldIns (dictInsert (toPyEntries acc) k (toPy x)) (toPyEntries es) from rfl]
    rw [← toPyEntries_dictInsert k x acc]
    rw [pyFoldIns_toPy es (dictInsert acc k x)]
    rfl

theorem mem_dictInsert {α : Type} (k : String) (v : α) :
    ∀ (d : List (String × α)) (kv : String × α),
      kv ∈ dictInsert d k v → kv ∈ d ∨ kv = (k, v)
  | [], kv, h => by
    simp [dictInsert] at h
    right
    exact h
  | (k', v') :: d, kv, h => by
    simp only [dictInsert] at h
    by_cases he : k' = k
    · rw [if_pos he] at h
      rcases List.mem_cons.mp h with h1 | h1
      · right
        rw [h1, he]
      · left
        exact List.mem_cons_of_mem _ h1
    · rw [if_neg he] at h
      rcases List.mem_cons.mp h with h1 | h1
      · left
        rw [h1]
        exact List.mem_cons_self _ _
      · rcases mem_dictInsert k v d kv h1 with h2 | h2
        · left
          exact List.mem_cons_of_mem _ h2
        · right
          exact h2

theorem mem_gFoldIns : ∀ (es acc : List (String × GVal)) (kv : String × GVal),
    kv ∈ gFoldIns acc es → kv ∈ acc ∨ kv ∈ es
  | [], acc, kv, h => Or.inl h
  | (k, x) :: es, acc, kv, h => by
    rcases mem_gFoldIns es (dictInsert acc k x) kv h with h1 | h1
    · rcases mem_dictInsert k x acc kv h1 with h2 | h2
      · exact Or.inl h2
      · exact Or.inr (by rw [h2]; exact List.mem_cons_self _ _)
    · exact Or.inr (List.mem_cons_of_mem _ h1)

theorem plainEntries_iff : ∀ es : List (String × GVal),
    plainEntries es = true ↔ ∀ kv ∈ es, plain kv.2 = true
  | [] => by simp [plainEntries]
  | (k, x) :: es => by
    simp only [plainEntries, Bool.and_eq_true, plainEntries_iff es]
    constructor
    · rintro ⟨h1, h2⟩ kv hkv
      rcases List.mem_cons.mp hkv with h3 | h3
      · rw [h3]; exact h1
      · exact h2 kv h3
    · intro h
      exact ⟨h (k, x) (List.mem_cons_self _ _), fun kv hkv => h kv (List.mem_cons_of_mem _ hkv)⟩

theorem wtEntries_iff : ∀ (A : Sig) (es : List (String × GVal)),
    wtEntries A es = true ↔ ∀ kv ∈ es, sigOf kv.2 = A ∧ wellTyped kv.2 = true
  | A, [] => by simp [wtEntries]
  | A, (k, x) :: es => by
    simp only [wtEntries, Bool.and_eq_true, wtEntries_iff A es, decide_eq_true_eq]
    constructor
    · rintro ⟨⟨h1, h2⟩, h3⟩ kv hkv
      rcases List.mem_cons.mp hkv with h4 | h4
      · rw [h4]; exact ⟨h1, h2⟩
      · exact h3 kv h4
    · intro h
      refine ⟨⟨(h (k, x) (List.mem_cons_self _ _)).1, (h (k, x) (List.mem_cons_self _ _)).2⟩,
        fun kv hkv => h kv (List.mem_cons_of_mem _ hkv)⟩

theorem lookup_dictInsert {α : Type} (k' k : String) (v : α) :
    ∀ d : List (String × α),
      List.lookup k' (dictInsert d k v) = if k' = k then some v else List.lookup k' d
  | [] => by
    by_cases h : k' = k
    · simp [dictInsert, List.lookup, h]
    · have hA : (k' == k) = false := by
        rw [beq_eq_false_iff_ne]
        exact h
      simp [dictInsert, List.lookup, hA, h]
  | (k2, v2) :: d => by
    simp only [dictInsert]
    by_cases h2 : k2 = k
    · rw [if_pos h2]
      by_cases h : k' = k
      · rw [if_pos h]
        have hA : (k' == k2) = true := beq_iff_eq.mpr (h.trans h2.symm)
        simp [List.lookup, hA]
      · rw [if_neg h]
        have hA : (k' == k2) = false := by
          rw [beq_eq_false_iff_ne]
          exact fun hh => h (hh.trans h2)
        simp [List.lookup, hA]
    · rw [if_neg h2]
      rw [show List.lookup k' ((k2, v2) :: dictInsert d k v) =
        (if (k' == k2) = true then some v2 else List.lookup k' (dictInsert d k v)) from by
          by_cases hb : (k' == k2) = true <;> simp [List.lookup, hb]]
      rw [lookup_dictInsert k' k v d]
      by_cases h : k' = k
      · rw [if_pos h]
        have hA : (k' == k2) = false := by
          rw [beq_eq_false_iff_ne]
          exact fun hh => h2 (hh.symm.trans h)
        simp [hA, h]
        exact fun hc => absurd (h.trans hc) (beq_eq_false_iff_ne.mp hA)
      · rw [if_neg h]
        by_cases hb : (k' == k2) = true <;> simp [List.lookup, hb, h]

theorem lookup_append {α β : Type} [BEq α] (k : α) :
    ∀ l1 l2 : List (α × β),
      List.lookup k (l1 ++ l2) =
        match List.lookup k l1 with
        | some v => some v
        | none => List.lookup k l2
  | [], l2 => by simp [List.lookup]
  | (k1, v1) :: l1, l2 => by
    simp only [List.cons_append]
    by_cases hb : (k == k1) = true <;>
      simp [List.lookup, hb, lookup_append k l1 l2]

theorem lookup_gFoldIns : ∀ (es acc : List (String × GVal)) (k : String),
    List.lookup k (gFoldIns acc es) =
      match List.lookup k es.reverse with
      | some v => some v
      | none => List.lookup k acc
  | [], acc, k => by simp [gFoldIns, List.lookup]
  | (k1, x) :: es, acc, k => by
    rw [show gFoldIns acc ((k1, x) :: es) = gFoldIns (dictInsert acc k1 x) es from rfl]
    rw [lookup_gFoldIns es (dictInsert acc k1 x) k]
    rw [lookup_dictInsert k k1 x acc]
    rw [show ((k1, x) :: es).reverse = es.reverse ++ [(k1, x)] from by simp]
    rw [lookup_append k es.reverse [(k1, x)]]
    cases hrev : List.lookup k es.reverse with
    | some v => rfl
    | none =>
      by_cases h : k = k1
      · have hA : (k == k1) = true := beq_iff_eq.mpr h
        simp [List.lookup, hA, h]
      · have hA : (k == k1) = false := by
          rw [beq_eq_false_iff_ne]
          exact h
        simp [List.lookup, hA, h]

theorem plainEntries_gFoldIns (es : List (String × GVal)) (h : plainEntries es = true) :
    plainEntries (gFoldIns [] es) = true := by
  rw [plainEntries_iff]
  intro kv hkv
  rcases mem_gFoldIns es [] kv hkv with h1 | h1
  · simp at h1
  · exact (plainEntries_iff es).mp h kv h1

theorem wtEntries_gFoldIns (A : Sig) (es : List (String × GVal))
    (h : wtEntries A es = true) : wtEntries A (gFoldIns [] es) = true := by
  rw [wtEntries_iff]
  intro kv hkv
  rcases mem_gFoldIns es [] kv hkv with h1 | h1
  · simp at h1
  · exact (wtEntries_iff A es).mp h kv h1

theorem findIdx_append_focused (focused : String) (post : List String) :
    ∀ (pre : List String) (i : Nat), focused ∉ pre →
      List.findIdx? (· == focused) (pre ++ focused :: post) i = some (i + pre.length)
  | [], i, _ => by
    simp [List.findIdx?_cons]
  | p :: pre, i, h => by
    simp only [List.mem_cons] at h
    push_neg at h
    simp only [List.cons_append, List.findIdx?_cons]
    have hb : (p == focused) = false := by
      rw [beq_eq_false_iff_ne]
      exact fun hh => h.1 hh.symm
    rw [if_neg (by simp [hb])]
    rw [findIdx_append_focused focused post pre (i + 1) h.2]
    simp only [List.length_cons]
    congr 1
    omega

/-! ### SearchResults invariant -/

theorem srInv_init (items : List String) : srInv ⟨items, 0⟩ := by
  constructor
  · simp
  · simp only [srInv]
    omega

theorem srInv_step (s : SearchResults) (h : srInv s) (op : SOp) : srInv (srStep s op).2 := by
  obtain ⟨h1, h2⟩ := h
  cases op with
  | next =>
    simp only [srStep, SearchResults.next]
    split
    · constructor
      · simp
        omega
      · simp at *
        omega
    · exact ⟨h1, h2⟩
  | previous =>
    simp only [srStep, SearchResults.previous]
    split
    · constructor
      · simp
        omega
      · simp at *
        omega
    · exact ⟨h1, h2⟩
  | current => exact ⟨h1, h2⟩
  | append x =>
    simp only [srStep, SearchResults.append]
    constructor
    · exact h1
    · simp only [List.length_append, List.length_singleton]
      simp at *
      omega

theorem srInv_run (ops : List SOp) : ∀ s : SearchResults, srInv s → srInv (srRun s ops) := by
  induction ops with
  | nil => intro s h; exact h
  | cons op ops ih =>
    intro s h
    exact ih _ (srInv_step s h op)

theorem srFetch_ok (s : SearchResults) (h : srInv s) :
    ∃ r : Option String, s.fetch = .ok r ∧ (r = none ↔ s.items = []) := by
  obtain ⟨h1, h2⟩ := h
  cases hx : s.items with
  | nil =>
    refine ⟨none, ?_, by simp [hx]⟩
    simp [SearchResults.fetch, hx]
  | cons a l =>
    have hlen : s.items.length = l.length + 1 := by simp [hx]
    have hidx : s.current_index.toNat < s.items.length := by
      rw [hlen] at h2 ⊢
      omega
    refine ⟨some (s.items.get ⟨s.current_index.toNat, hidx⟩), ?_, by simp [hx]⟩
    have hne : s.items.isEmpty = false := by simp [hx]
    simp only [SearchResults.fetch, hne, Bool.false_eq_true, if_false]
    rw [show pyListGet s.items s.current_index = s.items.get? s.current_index.toNat from by
      simp [pyListGet, h1]]
    rw [List.get?_eq_get hidx]

/-! ### Claim theorems -/

/-- Claim C4 (code bug): decomposing an empty maybe gives a compound node with
zero children, as claimed; but recomposing that zero-child node calls
`GLib.Variant.new_maybe(GLib.VariantType(vt_str), None)` with the *maybe*
type as the child type, yielding the absent encoding of type `mmi` instead of
`mi`; and recomposing a maybe node with one child gathers and discards the
child, never assigns the branch's result variable, and raises
`UnboundLocalError` instead of wrapping the child as present. -/
theorem C4_maybe_recompose_bug :
    (decomposeRoot (.vMaybe (.base 'i') none)).children = [] ∧
    round_trip (.vMaybe (.base 'i') none) =
      .ok (.vMaybe (.maybe (.base 'i')) none) ∧
    typeString (GVal.vMaybe (.maybe (.base 'i')) none) = "mmi" ∧
    typeString (GVal.vMaybe (.base 'i') none) = "mi" ∧
    round_trip (.vMaybe (.base 'i') (some (.vNum 'i' 5))) =
      .error "UnboundLocalError: local variable referenced before assignment" :=
  ⟨rfl, rfl, rfl, rfl, rfl⟩

/-- Claim C9: `GiValue.factory` classifies a value as compound exactly when
its type string is not a Python substring of `"bynqiuxtdsog"`; hence every
single base character is a leaf, while the two-character signature `"nq"` is
(mis)classified as non-compound because it happens to occur inside the base
string, and genuine compound signatures like `"ai"` are compound. -/
theorem C9_factory_substring :
    (∀ (val : Option PyVal) (t : String),
      (GiValue.factory val t).compound = !(pyIn t GlVariant.base_type_sig)) ∧
    (∀ (val : Option PyVal) (c : Char), charIn c GlVariant.base_type_sig = true →
      (GiValue.factory val (String.singleton c)).compound = false) ∧
    (GiValue.factory none "nq").compound = false ∧
    "nq".length = 2 ∧
    (GiValue.factory none "ai").compound = true ∧
    (GiValue.factory none "a\x7bsv\x7d").compound = true := by
  refine ⟨fun _ _ => rfl, fun val c h => ?_, rfl, rfl, rfl, rfl⟩
  simp [GiValue.factory, pyIn_singleton, h]

/-- Witness for C9 at the base character `n`. -/
theorem C9_factory_substring_witness :
    charIn 'n' GlVariant.base_type_sig = true ∧
    (GiValue.factory none (String.singleton 'n')).compound = false :=
  ⟨by decide, C9_factory_substring.2.1 none 'n' (by decide)⟩

/-- Claim C10: starting from any freshly-constructed `SearchResults` and
running any sequence of `next`/`previous`/`current`/`append` calls, the
cursor stays within `[0, len)` (or 0 for an empty list), and every call
returns normally (`None` exactly when the list is empty for the three cursor
calls) rather than raising. -/
theorem C10_search_results_bounds :
    ∀ (items : List String) (ops : List SOp),
      (0 ≤ (srRun ⟨items, 0⟩ ops).current_index ∧
        (srRun ⟨items, 0⟩ ops).current_index <
          max ((srRun ⟨items, 0⟩ ops).items.length : Int) 1) ∧
      (∀ op : SOp, ∃ r : Option String,
        (srStep (srRun ⟨items, 0⟩ ops) op).1 = .ok r ∧
        (op = SOp.next ∨ op = SOp.previous ∨ op = SOp.current →
          ((r = none) ↔ (srRun ⟨items, 0⟩ ops).items = []))) := by
  intro items ops
  have hinv : srInv (srRun ⟨items, 0⟩ ops) := srInv_run ops _ (srInv_init items)
  refine ⟨hinv, fun op => ?_⟩
  cases op with
  | next =>
    have hinv' := srInv_step _ hinv SOp.next
    obtain ⟨r, hr, hiff⟩ := srFetch_ok _ hinv'
    have hit : (srStep (srRun ⟨items, 0⟩ ops) SOp.next).2.items =
        (srRun ⟨items, 0⟩ ops).items := by
      simp only [srStep, SearchResults.next]
      split <;> rfl
    exact ⟨r, hr, fun _ => by rw [hiff, hit]⟩
  | previous =>
    have hinv' := srInv_step _ hinv SOp.previous
    obtain ⟨r, hr, hiff⟩ := srFetch_ok _ hinv'
    have hit : (srStep (srRun ⟨items, 0⟩ ops) SOp.previous).2.items =
        (srRun ⟨items, 0⟩ ops).items := by
      simp only [srStep, SearchResults.previous]
      split <;> rfl
    exact ⟨r, hr, fun _ => by rw [hiff, hit]⟩
  | current =>
    obtain ⟨r, hr, hiff⟩ := srFetch_ok _ hinv
    exact ⟨r, hr, fun _ => hiff⟩
  | append x =>
    refine ⟨none, rfl, fun h => ?_⟩
    rcases h with h | h | h <;> simp at h

/-- Witness for C10 on a concrete list and call sequence. -/
theorem C10_search_results_bounds_witness :
    ∃ r : Option String,
      (srStep (srRun ⟨["a"], 0⟩ [SOp.next, SOp.append "b"]) SOp.current).1 = .ok r ∧
      (SOp.current = SOp.next ∨ SOp.current = SOp.previous ∨
          SOp.current = SOp.current →
        ((r = none) ↔ (srRun ⟨["a"], 0⟩ [SOp.next, SOp.append "b"]).items = [])) :=
  (C10_search_results_bounds ["a"] [SOp.next, SOp.append "b"]).2 SOp.current

/-- Claim C6: `get_defaultvalue` on a non-compound focused leaf looks up the
focused item's position among its siblings and returns the element of the
schema default at that same position, surfacing an `IndexError` when the
default sequence is shorter; for a compound node, or when the default is not
a list/tuple, the default value is returned unchanged. -/
theorem C6_get_defaultvalue :
    (∀ (pre post : List String) (focused : String) (items : List PyVal)
        (gi : GiValue) (d : PyVal),
      gi.compound = false → focused ∉ pre → items.get? pre.length = some d →
      get_defaultvalue (pre ++ focused :: post) focused (.pyList items) gi =
        .ok d) ∧
    (∀ (pre post : List String) (focused : String) (items : List PyVal)
        (gi : GiValue),
      gi.compound = false → focused ∉ pre → items.get? pre.length = none →
      get_defaultvalue (pre ++ focused :: post) focused (.pyList items) gi =
        .error "IndexError: list index out of range") ∧
    (∀ (siblings : List String) (focused : String) (items : List PyVal)
        (gi : GiValue),
      gi.compound = true →
      get_defaultvalue siblings focused (.pyList items) gi =
        .ok (.pyList items)) ∧
    (∀ (siblings : List String) (focused : String) (dv : PyVal) (gi : GiValue),
      pySeqItems dv = none →
      get_defaultvalue siblings focused dv gi = .ok dv) := by
  refine ⟨?_, ?_, ?_, ?_⟩
  · intro pre post focused items gi d hc hpre hget
    have h0 : get_defaultvalue (pre ++ focused :: post) focused
        (.pyList items) gi =
        (if !gi.compound then
          match (pre ++ focused :: post).findIdx? (· == focused) with
          | some index =>
            match items.get? index with
            | some selected => Except.ok selected
            | none => Except.error "IndexError: list index out of range"
          | none => Except.error "ValueError: item not in list"
        else Except.ok (.pyList items)) := rfl
    rw [h0, hc]
    simp only [Bool.not_false, if_true]
    rw [findIdx_append_focused focused post pre 0 hpre]
    dsimp only
    rw [Nat.zero_add, hget]
  · intro pre post focused items gi hc hpre hget
    have h0 : get_defaultvalue (pre ++ focused :: post) focused
        (.pyList items) gi =
        (if !gi.compound then
          match (pre ++ focused :: post).findIdx? (· == focused) with
          | some index =>
            match items.get? index with
            | some selected => Except.ok selected
            | none => Except.error "IndexError: list index out of range"
          | none => Except.error "ValueError: item not in list"
        else Except.ok (.pyList items)) := rfl
    rw [h0, hc]
    simp only [Bool.not_false, if_true]
    rw [findIdx_append_focused focused post pre 0 hpre]
    dsimp only
    rw [Nat.zero_add, hget]
  · intro siblings focused items gi hc
    have h0 : get_defaultvalue siblings focused (.pyList items) gi =
        (if !gi.compound then
          match siblings.findIdx? (· == focused) with
          | some index =>
            match items.get? index with
            | some selected => Except.ok selected
            | none => Except.error "IndexError: list index out of range"
          | none => Except.error "ValueError: item not in list"
        else Except.ok (.pyList items)) := rfl
    rw [h0, hc]
    simp
  · intro siblings focused dv gi hnone
    cases dv <;> first | rfl | simp [pySeqItems] at hnone

/-- Witness for C6: the focused second-of-three leaf receives the second
default element, and a compound node receives the whole default list. -/
theorem C6_get_defaultvalue_witness :
    ((GiValue.factory (some (.pyInt 2)) "i").compound = false ∧
      ("1" : String) ∉ ["0"] ∧
      [PyVal.pyInt 1, .pyInt 2, .pyInt 3].get? (["0"] : List String).length =
        some (.pyInt 2) ∧
      get_defaultvalue (["0"] ++ "1" :: ["2"]) "1"
        (.pyList [.pyInt 1, .pyInt 2, .pyInt 3])
        (GiValue.factory (some (.pyInt 2)) "i") = .ok (.pyInt 2)) ∧
    ((GiValue.factory none "ai").compound = true ∧
      get_defaultvalue ["k"] "k" (.pyList [.pyInt 1, .pyInt 2])
        (GiValue.factory none "ai") = .ok (.pyList [.pyInt 1, .pyInt 2])) :=
  ⟨⟨rfl, by decide, rfl,
    C6_get_defaultvalue.1 ["0"] ["2"] "1" [.pyInt 1, .pyInt 2, .pyInt 3]
      (GiValue.factory (some (.pyInt 2)) "i") (.pyInt 2) rfl (by decide) rfl⟩,
   ⟨rfl, C6_get_defaultvalue.2.2.1 ["k"] "k" [.pyInt 1, .pyInt 2]
      (GiValue.factory none "ai") rfl⟩⟩

/-- Claim C8: in `accept_change`, the entry text is first coerced with the
current value's Python type (with `'False'` special-cased for booleans); a
coercion failure writes the message label and keeps the editor open without
touching the tree or the store; after a successful coercion the `GiValue` is
updated and the key's variant is rebuilt, and a rebuild failure writes the
message label and keeps the editor open with the store unchanged; only when
the rebuild succeeds is the store written and the editor closed. -/
theorem C8_commit_abort_order :
    ∀ (st : EditorState) (path : List Nat) (s kt : String) (ty : PyType),
      (getAt st.tree path).bind (fun gi => gi.value.bind pyTypeOf) = some ty →
      ((∀ e : String,
          (if ty = .tBool ∧ s = "False" then Except.ok (.pyBool false)
           else pyCoerce ty s) = .error e →
          accept_change st path s kt =
            { st with message := some e, editorOpen := true }) ∧
       (∀ (nv : PyVal) (e : String),
          (if ty = .tBool ∧ s = "False" then Except.ok (.pyBool false)
           else pyCoerce ty s) = .ok nv →
          rebuild_item (setAt st.tree path (fun gi => gi.set_value nv)) kt =
            .error e →
          accept_change st path s kt =
            ⟨st.storeVal, some e, true,
              setAt st.tree path (fun gi => gi.set_value nv)⟩) ∧
       (∀ (nv : PyVal) (v : GVal),
          (if ty = .tBool ∧ s = "False" then Except.ok (.pyBool false)
           else pyCoerce ty s) = .ok nv →
          rebuild_item (setAt st.tree path (fun gi => gi.set_value nv)) kt =
            .ok v →
          accept_change st path s kt =
            ⟨some v, st.message, false,
              setAt st.tree path (fun gi => gi.set_value nv)⟩)) := by
  intro st path s kt ty hty
  refine ⟨?_, ?_, ?_⟩
  · intro e hco
    simp only [accept_change, hty]
    rw [hco]
  · intro nv e hco hrb
    simp only [accept_change, hty]
    rw [hco]
    dsimp only
    rw [hrb]
  · intro nv v hco hrb
    simp only [accept_change, hty]
    rw [hco]
    dsimp only
    rw [hrb]

/-- Witness for C8: editing the present leaf of a maybe value coerces the
text successfully, but the rebuild raises (the maybe recomposition bug), so
the store keeps its old value, the error lands in the message label, and the
editor stays open. -/
theorem C8_commit_abort_order_witness :
    accept_change
        ⟨some (.vMaybe (.base 's') (some (.vStr 's' "x"))), none, true,
          decomposeRoot (.vMaybe (.base 's') (some (.vStr 's' "x")))⟩
        [0] "y" "ms" =
      ⟨some (.vMaybe (.base 's') (some (.vStr 's' "x"))),
        some "UnboundLocalError: local variable referenced before assignment",
        true,
        setAt (decomposeRoot (.vMaybe (.base 's') (some (.vStr 's' "x")))) [0]
          (fun gi => gi.set_value (.pyStr "y"))⟩ :=
  (C8_commit_abort_order
      ⟨some (.vMaybe (.base 's') (some (.vStr 's' "x"))), none, true,
        decomposeRoot (.vMaybe (.base 's') (some (.vStr 's' "x")))⟩
      [0] "y" "ms" .tStr rfl).2.1 (.pyStr "y")
    "UnboundLocalError: local variable referenced before assignment" rfl rfl

/-- Helper: the successful-commit branch of `accept_change`, for reuse. -/
theorem accept_change_ok (st : EditorState) (path : List Nat) (s kt : String)
    (ty : PyType) (nv : PyVal) (v : GVal)
    (hty : (getAt st.tree path).bind (fun gi => gi.value.bind pyTypeOf) = some ty)
    (hco : (if ty = .tBool ∧ s = "False" then Except.ok (.pyBool false)
            else pyCoerce ty s) = .ok nv)
    (hrb : rebuild_item (setAt st.tree path (fun gi => gi.set_value nv)) kt =
      .ok v) :
    accept_change st path s kt =
      ⟨some v, st.message, false,
        setAt st.tree path (fun gi => gi.set_value nv)⟩ := by
  simp only [accept_change, hty]
  rw [hco]
  dsimp only
  rw [hrb]

/-- Counterexample for Claim C3: entry text `"yes"` on a boolean key is not
rejected with an error message — `bool('yes')` is `True`, so the edit commits
`True`, closes the editor and leaves the message label untouched; and
`set_value` on a boolean `GiValue` maps the *string* `"yes"` silently to
`False`.  Neither path ever errors. -/
theorem C3_bool_text_counterexample :
    (accept_change ⟨some (.vBool true), none, true, decomposeRoot (.vBool true)⟩
        [] "yes" "b").editorOpen = false ∧
    (accept_change ⟨some (.vBool true), none, true, decomposeRoot (.vBool true)⟩
        [] "yes" "b").message = none ∧
    (accept_change ⟨some (.vBool true), none, true, decomposeRoot (.vBool true)⟩
        [] "yes" "b").storeVal = some (.vBool true) ∧
    ((GiValue.factory (some (.pyBool true)) "b").set_value
        (.pyStr "yes")).value = some (.pyBool false) :=
  ⟨rfl, rfl, rfl, rfl⟩

/-- Claim C3 (amended): editing a boolean key never flags invalid text.
`accept_change` coerces the entry text with `bool(...)` — except that the
literal `'False'` is sent to `False` first — so the committed value is
`False` exactly for `'False'` and the empty string, and `True` for every
other text, always closing the editor with the message label unchanged;
independently, `GiValue.set_value` on a boolean-typed value compares a
string argument against `'True'` and silently stores `False` for anything
else. -/
theorem C3_bool_coercion :
    (∀ (b : Bool) (s : String) (sv : Option GVal) (msg : Option String)
        (op0 : Bool),
      (accept_change ⟨sv, msg, op0, decomposeRoot (.vBool b)⟩ [] s
          "b").editorOpen = false ∧
      (accept_change ⟨sv, msg, op0, decomposeRoot (.vBool b)⟩ [] s
          "b").message = msg ∧
      (accept_change ⟨sv, msg, op0, decomposeRoot (.vBool b)⟩ [] s
          "b").storeVal =
        some (.vBool (if s = "False" then false else decide (s ≠ "")))) ∧
    (∀ (gi : GiValue) (s : String), gi.vtype = "b" →
      (gi.set_value (.pyStr s)).value = some (.pyBool (s == "True"))) := by
  refine ⟨?_, ?_⟩
  · intro b s sv msg op0
    have hco : (if PyType.tBool = PyType.tBool ∧ s = "False" then
          Except.ok (PyVal.pyBool false)
        else pyCoerce .tBool s) =
        .ok (.pyBool (if s = "False" then false else decide (s ≠ ""))) := by
      by_cases hs : s = "False"
      · rw [if_pos ⟨rfl, hs⟩, if_pos hs]
      · rw [if_neg (fun h => hs h.2), if_neg hs]
        rfl
    have h := accept_change_ok
      ⟨sv, msg, op0, decomposeRoot (.vBool b)⟩ [] s "b" .tBool
      (.pyBool (if s = "False" then false else decide (s ≠ "")))
      (.vBool (if s = "False" then false else decide (s ≠ "")))
      rfl hco rfl
    exact ⟨by rw [h], by rw [h], by rw [h]⟩
  · intro gi s h
    simp only [GiValue.set_value]
    rw [if_pos h]

/-- Witness for C3 at the text `"yes"`: the committed value is `True` via
the editor path, while `set_value` on the boolean `GiValue` stores `False`. -/
theorem C3_bool_coercion_witness :
    (accept_change
        ⟨some (.vBool false), none, true, decomposeRoot (.vBool false)⟩
        [] "yes" "b").storeVal =
      some (.vBool (if ("yes" : String) = "False" then false
        else decide (("yes" : String) ≠ ""))) ∧
    ((GiValue.factory none "b").set_value (.pyStr "yes")).value =
      some (.pyBool (("yes" : String) == "True")) :=
  ⟨(C3_bool_coercion.1 false "yes" (some (.vBool false)) none true).2.2,
   C3_bool_coercion.2 (GiValue.factory none "b") "yes" rfl⟩

/-- Counterexample for Claim C1: the absent maybe value of type `mi`
conforms to its signature, yet its round trip does not return it — the
recomposer rebuilds the absent value of the *maybe* type itself, i.e. the
`mmi` absent value. -/
theorem C1_round_trip_counterexample :
    round_trip (.vMaybe (.base 'i') none) ≠ .ok (.vMaybe (.base 'i') none) := by
  have h0 : round_trip (.vMaybe (.base 'i') none) =
      .ok (.vMaybe (.maybe (.base 'i')) none) := rfl
  rw [h0]
  intro h
  simp at h

/-- Claim C1 (amended): on the maybe-free, variant-free fragment of the
value grammar — any value built from booleans, numeric and string leaves,
arrays, tuples and dictionaries with pairwise-distinct keys, well-typed
against its signature — decomposing with `parse_key` and recomposing with
`rebuild_item`/`gather_variant` returns the original value structurally
unchanged.  (Maybe values break the round trip — see C4 — and duplicate
dictionary keys are collapsed — see C5.) -/
theorem C1_round_trip (v : GVal) (hp : plain v = true) (hw : wellTyped v = true)
    (hd : dupFree v = true) : round_trip v = .ok v :=
  round_trip_plain v hp hw hd

/-- Witness for C1 on a nested tuple of an integer, a string array and a
boolean dictionary. -/
theorem C1_round_trip_witness :
    plain (GVal.vTuple [.vNum 'i' 3, .vArray (.base 's') [.vStr 's' "x"],
        .vDict (.base 'b') [("a", .vBool true), ("b", .vBool false)]]) = true ∧
    wellTyped (GVal.vTuple [.vNum 'i' 3, .vArray (.base 's') [.vStr 's' "x"],
        .vDict (.base 'b') [("a", .vBool true), ("b", .vBool false)]]) = true ∧
    dupFree (GVal.vTuple [.vNum 'i' 3, .vArray (.base 's') [.vStr 's' "x"],
        .vDict (.base 'b') [("a", .vBool true), ("b", .vBool false)]]) = true ∧
    round_trip (GVal.vTuple [.vNum 'i' 3, .vArray (.base 's') [.vStr 's' "x"],
        .vDict (.base 'b') [("a", .vBool true), ("b", .vBool false)]]) =
      .ok (GVal.vTuple [.vNum 'i' 3, .vArray (.base 's') [.vStr 's' "x"],
        .vDict (.base 'b') [("a", .vBool true), ("b", .vBool false)]]) :=
  ⟨rfl, rfl, rfl,
    C1_round_trip (GVal.vTuple [.vNum 'i' 3, .vArray (.base 's') [.vStr 's' "x"],
      .vDict (.base 'b') [("a", .vBool true), ("b", .vBool false)]]) rfl rfl rfl⟩

/-- Counterexample for Claim C2: the variant wrapping of a *leaf* nested in
a compound is not re-inserted on recomposition — the flattened child is
gathered as a raw scalar, so rebuilding an `a{sv}` dictionary whose variant
wraps a plain integer fails inside `GLib.Variant` with a `TypeError`
instead of reproducing the value. -/
theorem C2_variant_flatten_counterexample :
    round_trip (.vDict .variant [("k", .vVariant (.vNum 'i' 42))]) =
      .error "TypeError: expected GLib.Variant" := rfl

/-- Claim C2 (amended): decomposition keeps a wrapper node for a root
variant and flattens a nested variant into its parent's child sequence, as
claimed; but on recomposition the `is_variant` mark re-wraps the child only
when the child is itself a compound — a variant-wrapped *leaf* is gathered
raw, its wrapping lost (the re-typing then generally fails, see the
counterexample; root variants are never recomposed at all, the root's
gather is also the raw/compound-wrapped child). -/
theorem C2_variant_flatten :
    (∀ (w : GVal) (n : String) (var : Bool),
      parse_key true n (.vVariant w) var =
        [.node n (add_gidata none "v" var) (parse_key false n w true)]) ∧
    (∀ (w : GVal) (n : String) (var : Bool),
      parse_key false n (.vVariant w) var = parse_key false n w true) ∧
    (∀ (w : GVal) (n : String), plain w = true → wellTyped w = true →
      dupFree w = true → isLeafTS w = false →
      ∃ t, parse_key false n w true = [t] ∧
        gather_variant t true = .ok (.pyVariant w)) ∧
    (∀ (w : GVal) (n : String), plain w = true → wellTyped w = true →
      dupFree w = true → isLeafTS w = true →
      ∃ t, parse_key false n w true = [t] ∧
        gather_variant t true = .ok (toPy w)) := by
  refine ⟨fun w n var => parse_key_vVariant_root n w var,
    fun w n var => parse_key_vVariant_nested n w var, ?_, ?_⟩
  · intro w n hp hw hd hleaf
    obtain ⟨t, hpk, _, hgt, _⟩ := parse_gather w hp hw hd n true
    refine ⟨t, hpk, ?_⟩
    rw [hgt]
    simp [gTrue, hleaf]
  · intro w n hp hw hd hleaf
    obtain ⟨t, hpk, _, hgt, _⟩ := parse_gather w hp hw hd n true
    refine ⟨t, hpk, ?_⟩
    rw [hgt]
    simp [gTrue, hleaf]

/-- Witness for C2: a flattened variant over a compound payload is re-wrapped
when gathered, while one over an integer leaf comes back as the raw scalar. -/
theorem C2_variant_flatten_witness :
    (parse_key true "key" (.vVariant (.vNum 'i' 42)) false =
      [.node "key" (add_gidata none "v" false)
        (parse_key false "key" (.vNum 'i' 42) true)]) ∧
    (∃ t, parse_key false "0" (.vArray (.base 'i') [.vNum 'i' 7]) true = [t] ∧
      gather_variant t true =
        .ok (.pyVariant (.vArray (.base 'i') [.vNum 'i' 7]))) ∧
    (∃ t, parse_key false "0" (.vNum 'i' 42) true = [t] ∧
      gather_variant t true = .ok (toPy (.vNum 'i' 42))) :=
  ⟨C2_variant_flatten.1 (.vNum 'i' 42) "key" false,
   C2_variant_flatten.2.2.1 (.vArray (.base 'i') [.vNum 'i' 7]) "0"
     rfl rfl rfl rfl,
   C2_variant_flatten.2.2.2 (.vNum 'i' 42) "0" rfl rfl rfl rfl⟩

/-- Counterexample for Claim C5: decomposing a dictionary with two entries
sharing the key `"k"` retains *both* entries as children (two tree items
named `"k"`, the first still carrying the earlier value) — nothing is
dropped at decomposition time. -/
theorem C5_dup_keys_counterexample :
    ((decomposeRoot (.vDict (.base 'i')
        [("k", .vNum 'i' 1), ("k", .vNum 'i' 2)])).children.map
      TreeNode.name = ["k", "k"]) ∧
    ((decomposeRoot (.vDict (.base 'i')
        [("k", .vNum 'i' 1), ("k", .vNum 'i' 2)])).children.map
      (fun t => t.gi.value) = [some (.pyInt 1), some (.pyInt 2)]) :=
  ⟨rfl, rfl⟩

/-- Claim C5 (amended): decomposition keeps one child per encoded entry in
order, duplicates included; the last-write-wins collapse happens only at
*recomposition*, where the gathered children are poured into a Python dict,
so the rebuilt dictionary maps each key to its last occurrence's value (at
the first occurrence's position). -/
theorem C5_dict_last_write_wins :
    ∀ (A : Sig) (es : List (String × GVal)), sigOk A = true →
      plainEntries es = true → wtEntries A es = true →
      dupFreeEntries es = true →
      ((decomposeRoot (.vDict A es)).children.map TreeNode.name =
          es.map Prod.fst ∧
        gather_variant (decomposeRoot (.vDict A es)) false =
          .ok (.pyVariant (.vDict A (gFoldIns [] es))) ∧
        ∀ k : String, List.lookup k (gFoldIns [] es) =
          List.lookup k es.reverse) := by
  intro A es hA hpe hwe hde
  have hvals := wtEntries_wtVals A es hwe
  have hdr : decomposeRoot (.vDict A es) =
      .node "key" (add_gidata none (typeString (.vDict A es)) false)
        (parse_entries es) := by
    rw [decomposeRoot, parse_key_vDict]
    rfl
  obtain ⟨hgd, hnames⟩ := parse_gather_entries es hpe hvals hde []
  refine ⟨?_, ?_, ?_⟩
  · rw [hdr]
    exact hnames
  · rw [hdr, gather_node_dict, hgd]
    have hfold : pyFoldIns [] (toPyEntries es) =
        toPyEntries (gFoldIns [] es) := pyFoldIns_toPy es []
    rw [hfold]
    have hds : dict_stage (typeString (.vDict A es)) false
        (.ok (toPyEntries (gFoldIns [] es))) =
        (glVariant (typeString (.vDict A es))
          (.pyDict (toPyEntries (gFoldIns [] es)))).map PyVal.pyVariant := rfl
    rw [hds]
    have hpD : plain (GVal.vDict A (gFoldIns [] es)) = true := by
      have h1 := plainEntries_gFoldIns es hpe
      simp [plain, hA, h1]
    have hwD : wellTyped (GVal.vDict A (gFoldIns [] es)) = true :=
      wtEntries_gFoldIns A es hwe
    rw [show typeString (GVal.vDict A es) =
      typeString (GVal.vDict A (gFoldIns [] es)) from rfl]
    rw [show PyVal.pyDict (toPyEntries (gFoldIns [] es)) =
      toPy (GVal.vDict A (gFoldIns [] es)) from rfl]
    rw [glVariant_ok _ hpD hwD]
    rfl
  · intro k
    rw [lookup_gFoldIns es [] k]
    cases h : List.lookup k es.reverse <;> rfl

/-- Witness for C5 on the duplicate-key dictionary `{"k": 1, "k": 2}`. -/
theorem C5_dict_last_write_wins_witness :
    ((decomposeRoot (.vDict (.base 'i')
        [("k", .vNum 'i' 1), ("k", .vNum 'i' 2)])).children.map TreeNode.name =
      ([("k", GVal.vNum 'i' 1), ("k", GVal.vNum 'i' 2)]).map Prod.fst) ∧
    (gather_variant (decomposeRoot (.vDict (.base 'i')
        [("k", .vNum 'i' 1), ("k", .vNum 'i' 2)])) false =
      .ok (.pyVariant (.vDict (.base 'i')
        (gFoldIns [] [("k", .vNum 'i' 1), ("k", .vNum 'i' 2)])))) ∧
    (List.lookup "k" (gFoldIns [] [("k", .vNum 'i' 1), ("k", .vNum 'i' 2)]) =
      List.lookup "k"
        ([("k", GVal.vNum 'i' 1), ("k", GVal.vNum 'i' 2)]).reverse) := by
  have h := C5_dict_last_write_wins (.base 'i')
    [("k", .vNum 'i' 1), ("k", .vNum 'i' 2)] rfl rfl rfl rfl
  exact ⟨h.1, h.2.1, h.2.2 "k"⟩

/-- Claim C7: both type strings begin with `'a'`, and the character right
after the `'a'` disambiguates: `'\x7b'` selects the dictionary branch and
any other character (including `'('`) the generic array branch, in
decomposition (children are keyed by entry key vs. positional index) and in
recomposition alike (witnessed by both container kinds round-tripping
through their respective branches). -/
theorem C7_array_dict_disambiguation :
    ∀ (A : Sig) (es : List (String × GVal)) (e : Sig) (xs : List GVal),
      sigOk A = true → plainEntries es = true → wtEntries A es = true →
      dupFreeEntries es = true → strsDistinct (es.map Prod.fst) = true →
      sigOk e = true → plainList xs = true → wtElems e xs = true →
      dupFreeList xs = true →
      ((headChar (typeString (.vDict A es)) = 'a' ∧
        headChar (typeString (.vArray e xs)) = 'a' ∧
        strStarts (typeString (.vDict A es)) "a\x7b" = true ∧
        strStarts (typeString (.vArray e xs)) "a\x7b" = false) ∧
       (decomposeRoot (.vDict A es)).children.map TreeNode.name =
         es.map Prod.fst ∧
       (decomposeRoot (.vArray e xs)).children.map TreeNode.name =
         (List.range' 0 xs.length).map toString ∧
       round_trip (.vDict A es) = .ok (.vDict A es) ∧
       round_trip (.vArray e xs) = .ok (.vArray e xs)) := by
  intro A es e xs hA hpe hwe hde hdist he hpl hwl hdl
  obtain ⟨r, hr⟩ := sigChars_cons e
  have hstart : strStarts (typeString (.vArray e xs)) "a\x7b" = false := by
    rw [strStarts]
    rw [show (typeString (GVal.vArray e xs)).toList = 'a' :: sigChars e from rfl,
      hr]
    have hne := (sigOk_head e he).1
    simp [List.isPrefixOf]
    exact fun hh => hne hh.symm
  refine ⟨⟨rfl, rfl, rfl, hstart⟩, ?_, ?_, ?_, ?_⟩
  · have hdr : decomposeRoot (.vDict A es) =
        .node "key" (add_gidata none (typeString (.vDict A es)) false)
          (parse_entries es) := by
      rw [decomposeRoot, parse_key_vDict]
      rfl
    rw [hdr]
    exact (parse_gather_entries es hpe (wtEntries_wtVals A es hwe) hde []).2
  · have hdr : decomposeRoot (.vArray e xs) =
        .node "key" (add_gidata none (typeString (.vArray e xs)) false)
          (parse_elems 0 xs) := by
      rw [decomposeRoot, parse_key_vArray true "key" xs false he]
      rfl
    rw [hdr]
    exact (parse_gather_list xs hpl (wtElems_wtList e xs hwl) hdl 0).2
  · exact round_trip_plain (.vDict A es)
      (by simp [plain, hA, hpe]) hwe (by simp [dupFree, hdist, hde])
  · exact round_trip_plain (.vArray e xs)
      (by simp [plain, he, hpl]) hwl hdl

/-- Witness for C7 on the dictionary `a\x7bsi\x7d` value `{"a": 1, "b": 2}`
and the tuple array `a(ii)` value `[(1, 2)]`. -/
theorem C7_array_dict_disambiguation_witness :
    (headChar (typeString (.vDict (.base 'i')
        [("a", .vNum 'i' 1), ("b", .vNum 'i' 2)])) = 'a' ∧
      headChar (typeString (.vArray (.tuple [.base 'i', .base 'i'])
        [.vTuple [.vNum 'i' 1, .vNum 'i' 2]])) = 'a' ∧
      strStarts (typeString (.vDict (.base 'i')
        [("a", .vNum 'i' 1), ("b", .vNum 'i' 2)])) "a\x7b" = true ∧
      strStarts (typeString (.vArray (.tuple [.base 'i', .base 'i'])
        [.vTuple [.vNum 'i' 1, .vNum 'i' 2]])) "a\x7b" = false) ∧
    (decomposeRoot (.vDict (.base 'i')
        [("a", .vNum 'i' 1), ("b", .vNum 'i' 2)])).children.map TreeNode.name =
      ([("a", GVal.vNum 'i' 1), ("b", GVal.vNum 'i' 2)]).map Prod.fst ∧
    (decomposeRoot (.vArray (.tuple [.base 'i', .base 'i'])
        [.vTuple [.vNum 'i' 1, .vNum 'i' 2]])).children.map TreeNode.name =
      (List.range' 0 ([GVal.vTuple [.vNum 'i' 1, .vNum 'i' 2]]).length).map
        toString ∧
    round_trip (.vDict (.base 'i') [("a", .vNum 'i' 1), ("b", .vNum 'i' 2)]) =
      .ok (.vDict (.base 'i') [("a", .vNum 'i' 1), ("b", .vNum 'i' 2)]) ∧
    round_trip (.vArray (.tuple [.base 'i', .base 'i'])
        [.vTuple [.vNum 'i' 1, .vNum 'i' 2]]) =
      .ok (.vArray (.tuple [.base 'i', .base 'i'])
        [.vTuple [.vNum 'i' 1, .vNum 'i' 2]]) :=
  C7_array_dict_disambiguation (.base 'i')
    [("a", .vNum 'i' 1), ("b", .vNum 'i' 2)] (.tuple [.base 'i', .base 'i'])
    [.vTuple [.vNum 'i' 1, .vNum 'i' 2]] rfl rfl rfl rfl rfl rfl rfl rfl rfl
